import Mathlib

/-!
Ternary-search-tree trie over a fixed node arena (`trie.c`, `trie.h`)

A shallow embedding of `TrieNode_init`, `Trie_new`, `Trie_Lookup` and
`Trie_Insert`, followed by the properties established about them.

Modelling decisions, each taken from the C source:

* A `char` is its value after integer promotion (`Int`); `0` is the terminator.
* A key is a pointer to a NUL-terminated buffer.  `CString.chars` followed by a
  `0` followed by `CString.past` is the memory the pointer addresses, so a read
  behind the terminator is a read of `past`.  `strlen` is the position of the
  first `0`.
* A `TRIE_NODE*` is `Option Nat`: `none` is `NULL`, `some i` is `&nodeList[i]`.
  A `void*` payload is `Option Nat` as well.
* `nodeList` is the memory addressed from the arena base, indexed by slot.  The
  malloc-ed block holds the slots `0 .. nodeListSize - 1`.  C does not check
  array bounds, so a write to a slot at `nodeListSize` or above goes through; it
  is a heap overflow, undefined behaviour, and the embedding records it in
  `TRIE.wroteOutside`.  What the embedding computes once that record is set is
  one continuation among those C allows; it is what a run shows as long as the
  overflow does no visible harm.
* `TRIE_NODE** curr` is a `Loc`: either `&self->root` or
  `&nodeList[n].relatives[k]`.
* The two `while ( 1 )` loops take a fuel argument, one unit per iteration;
  running dry is the distinct result `outOfFuel` / `none`.
* `int keyLength = strlen( key )` converts a `size_t` to a 32-bit `int`
  (`int_of_size_t`), so a key of `2^31` characters or more gets another length.
* `malloc( sizeof( TRIE_NODE ) * maxSize )` multiplies in 64-bit `size_t`
  (`blockSlots`); the sizes are those of an LP64 platform.
* `int keyIndex` counts matched nodes on one path and is kept unbounded.
  The `size_t` values `maxSize`, `nodeListSize` and `nodeListIndex` are natural
  numbers: the cursor is incremented only while it is below `nodeListSize`, so
  no addition on them wraps.
-/

namespace Trie

/-! ## Keys -/

/-- A C string argument: the characters stored at the pointer, the terminating
`0` that follows them, and whatever memory lies behind that terminator. -/
structure CString where
  chars : List Int
  past : Nat → Int

/-- The byte `key[ i ]`. -/
def CString.get (key : CString) (i : Nat) : Int :=
  if i < key.chars.length then key.chars.getD i 0
  else if i = key.chars.length then 0
  else key.past (i - key.chars.length - 1)

/-- The string the buffer denotes: everything in front of the first `0`. -/
def CString.text (key : CString) : List Int :=
  key.chars.takeWhile (fun c => decide (c ≠ 0))

/-- The C library `strlen`: number of bytes in front of the first `0`. -/
def strlen (key : CString) : Nat := key.text.length

/-! ## Data model (`trie.h`) -/

def TRIE_NODE_LOW_CHILD : Fin 3 := 0
def TRIE_NODE_HIGH_CHILD : Fin 3 := 1
def TRIE_NODE_EQ_CHILD : Fin 3 := 2

structure TRIE_NODE where
  relatives : Fin 3 → Option Nat
  data : Option Nat
  splitchar : Int

/-- The struct `TRIE`, and one record that is not a member of the C struct:
`wroteOutside` tells that some write through `nodeList` went to a slot outside
the malloc-ed block (a heap overflow, undefined behaviour in C). -/
structure TRIE where
  nodeList : Nat → TRIE_NODE
  nodeListSize : Nat
  nodeListIndex : Nat
  root : Option Nat
  wroteOutside : Bool

/-- A value of type `TRIE_NODE**`. -/
inductive Loc where
  | root : Loc
  | rel (node : Nat) (index : Fin 3) : Loc
  deriving DecidableEq

/-- Reading `*curr`. -/
def TRIE.load (self : TRIE) : Loc → Option Nat
  | Loc.root => self.root
  | Loc.rel n k => (self.nodeList n).relatives k

/-- Writing `*curr = p`.  A link field of a slot outside the block is a write
outside the block. -/
def TRIE.store (self : TRIE) (curr : Loc) (p : Option Nat) : TRIE :=
  match curr with
  | Loc.root => { self with root := p }
  | Loc.rel n k =>
    { self with
      nodeList := Function.update self.nodeList n
        { self.nodeList n with
          relatives := Function.update (self.nodeList n).relatives k p }
      wroteOutside := self.wroteOutside || decide (self.nodeListSize ≤ n) }

/-- Writing `node->data = data` for `node = &nodeList[p]`. -/
def TRIE.setData (self : TRIE) (p : Nat) (data : Option Nat) : TRIE :=
  { self with
    nodeList := Function.update self.nodeList p { self.nodeList p with data := data }
    wroteOutside := self.wroteOutside || decide (self.nodeListSize ≤ p) }

/-! ## Operations (`trie.c`) -/

/-- `TrieNode_init( &mem[node], splitchar, data )`: all five fields are written. -/
def TrieNode_init (mem : Nat → TRIE_NODE) (node : Nat) (splitchar : Int)
    (data : Option Nat) : Nat → TRIE_NODE :=
  Function.update mem node
    { splitchar := splitchar, data := data, relatives := fun _ => none }

/-- The call `TrieNode_init( node, splitchar, data )` for `node = &nodeList[p]`. -/
def TRIE.initNode (self : TRIE) (p : Nat) (splitchar : Int) (data : Option Nat) : TRIE :=
  { self with
    nodeList := TrieNode_init self.nodeList p splitchar data
    wroteOutside := self.wroteOutside || decide (self.nodeListSize ≤ p) }

/-- The value of `sizeof( TRIE_NODE )` on an LP64 platform: three pointers, one
pointer, one `char`, padded to a multiple of eight. -/
def sizeof_TRIE_NODE : Nat := 40

/-- Number of whole nodes in the block `malloc( sizeof( TRIE_NODE ) * maxSize )`
returns: the product is taken in 64-bit `size_t` and wraps. -/
def blockSlots (maxSize : Nat) : Nat :=
  (sizeof_TRIE_NODE * maxSize % 2 ^ 64) / sizeof_TRIE_NODE

/-- The value of `(int) n` for a `size_t` value `n`: the low 32 bits, read in
two's complement. -/
def int_of_size_t (n : Nat) : Int := (((n + 2 ^ 31) % 2 ^ 32 : Nat) : Int) - 2 ^ 31

/-- The loop `for ( i = 0; i < maxSize; i++ ) TrieNode_init( &nodeList[ i ], 0, NULL )`,
started at `i`, with `n` iterations left. -/
def initLoop (mem : Nat → TRIE_NODE) (i : Nat) : Nat → Nat → TRIE_NODE
  | 0 => mem
  | n + 1 => initLoop (TrieNode_init mem i 0 none) (i + 1) n

/-- `Trie_new( maxSize )`.  `trieAlloc` tells whether `malloc( sizeof( TRIE ) )`
succeeded; `listAlloc` is `none` when the second `malloc` failed and otherwise
the (uninitialised) memory found at the address it returned.  The result is
`none` when the function returns `NULL`.  The initialisation loop writes the
slots `0 .. maxSize - 1`, which is outside the block when the block has fewer
slots than that. -/
def Trie_new (trieAlloc : Bool) (listAlloc : Option (Nat → TRIE_NODE))
    (maxSize : Nat) : Option TRIE :=
  let maxSize := if maxSize < 1 then 1 else maxSize
  if trieAlloc then
    match listAlloc with
    | none => none
    | some mem =>
      some
        { nodeList := initLoop mem 0 maxSize
          nodeListSize := maxSize
          nodeListIndex := 1
          root := some 0
          wroteOutside := decide (blockSlots maxSize < maxSize) }
  else none

/-- One pass of the loop body of `Trie_Lookup`, with `fuel` passes left.
`none` means the loop has not returned within the fuel; `some r` is the
returned `void*`. -/
def lookupLoop (self : TRIE) (key : CString) : Nat → Option Nat → Nat → Option (Option Nat)
  | 0, _, _ => none
  | fuel + 1, curr, keyIndex =>
    match curr with
    | none => some none
    | some p =>
      if key.get keyIndex = (self.nodeList p).splitchar then
        if key.get (keyIndex + 1) = 0 then
          some (self.nodeList p).data
        else
          lookupLoop self key fuel ((self.nodeList p).relatives TRIE_NODE_EQ_CHILD)
            (keyIndex + 1)
      else
        lookupLoop self key fuel
          ((self.nodeList p).relatives
            (if key.get keyIndex < (self.nodeList p).splitchar then TRIE_NODE_LOW_CHILD
             else TRIE_NODE_HIGH_CHILD))
          keyIndex

/-- `Trie_Lookup( self, key )` with a bound on the number of loop passes. -/
def Trie_Lookup (fuel : Nat) (self : TRIE) (key : CString) : Option (Option Nat) :=
  lookupLoop self key fuel self.root 0

/-- What a call of `Trie_Insert` comes to. -/
inductive InsertResult where
  | outOfFuel : InsertResult
  | nullDeref : InsertResult
  | returned (code : Int) (self : TRIE) : InsertResult

/-- What one pass of the loop body of `Trie_Insert` comes to. -/
inductive Step where
  | exit (r : InsertResult) : Step
  | next (self : TRIE) (curr : Loc) (keyIndex : Nat) (currentChar : Int) : Step

/-- The tail of the loop body: `if ( currentChar == (*curr)->splitchar ) ... else ...`. -/
def compareStep (key : CString) (self : TRIE) (curr : Loc) (keyIndex : Nat)
    (currentChar : Int) : Step :=
  match self.load curr with
  | none => Step.exit InsertResult.nullDeref
  | some p =>
    if currentChar = (self.nodeList p).splitchar then
      Step.next self (Loc.rel p TRIE_NODE_EQ_CHILD) (keyIndex + 1) (key.get (keyIndex + 1))
    else
      Step.next self
        (Loc.rel p
          (if currentChar < (self.nodeList p).splitchar then TRIE_NODE_LOW_CHILD
           else TRIE_NODE_HIGH_CHILD))
        keyIndex currentChar

/-- One pass of the loop body of `Trie_Insert`. -/
def insertIter (key : CString) (data : Option Nat) (keyLength : Int) (self : TRIE)
    (curr : Loc) (keyIndex : Nat) (currentChar : Int) : Step :=
  match self.load curr with
  | none =>
    if self.nodeListIndex ≥ self.nodeListSize then
      Step.exit (InsertResult.returned (-1) self)
    else
      let self1 := { self with nodeListIndex := self.nodeListIndex + 1 }
      let self2 := self1.store curr (some self1.nodeListIndex)
      match self2.load curr with
      | none => Step.exit InsertResult.nullDeref
      | some p =>
        let self3 := self2.initNode p currentChar none
        if (keyIndex : Int) = keyLength - 1 then
          match self3.load curr with
          | none => Step.exit InsertResult.nullDeref
          | some q => Step.exit (InsertResult.returned 0 (self3.setData q data))
        else
          compareStep key self3 curr keyIndex currentChar
  | some _ => compareStep key self curr keyIndex currentChar

/-- The loop `while ( 1 )` of `Trie_Insert`, with `fuel` passes left. -/
def insertLoop (key : CString) (data : Option Nat) (keyLength : Int) :
    Nat → TRIE → Loc → Nat → Int → InsertResult
  | 0, _, _, _, _ => InsertResult.outOfFuel
  | fuel + 1, self, curr, keyIndex, currentChar =>
    match insertIter key data keyLength self curr keyIndex currentChar with
    | Step.exit r => r
    | Step.next self1 curr1 keyIndex1 currentChar1 =>
      insertLoop key data keyLength fuel self1 curr1 keyIndex1 currentChar1

/-- `Trie_Insert( self, key, data )` with a bound on the number of loop passes. -/
def Trie_Insert (fuel : Nat) (self : TRIE) (key : CString) (data : Option Nat) :
    InsertResult :=
  insertLoop key data (int_of_size_t (strlen key)) fuel self Loc.root 0 (key.get 0)

/-- The return value of a call, when it returned. -/
def InsertResult.code : InsertResult → Option Int
  | InsertResult.returned c _ => some c
  | _ => none

/-- The trie a call leaves behind, when it returned. -/
def InsertResult.trie : InsertResult → Option TRIE
  | InsertResult.returned _ t => some t
  | _ => none

/-- Tries built by `Trie_new` followed by any number of returning `Trie_Insert`
calls, with arbitrary keys and payloads. -/
inductive Reachable : TRIE → Prop
  | new (trieAlloc : Bool) (listAlloc : Option (Nat → TRIE_NODE)) (maxSize : Nat) (t : TRIE) :
      Trie_new trieAlloc listAlloc maxSize = some t → Reachable t
  | insert (t t' : TRIE) (fuel : Nat) (key : CString) (data : Option Nat) (code : Int) :
      Reachable t → Trie_Insert fuel t key data = InsertResult.returned code t' →
      Reachable t'

/-! ## Which bytes of the key the operations read -/

/-- The key indices one run of the `Trie_Lookup` loop reads, in order: a pass
with `curr != NULL` reads `key[ keyIndex ]` in the comparison with the split
character; on a match it reads `key[ keyIndex ]` once more after the increment;
otherwise it reads `key[ keyIndex ]` again to choose between low and high. -/
def lookupReads (self : TRIE) (key : CString) : Nat → Option Nat → Nat → List Nat
  | 0, _, _ => []
  | fuel + 1, curr, keyIndex =>
    match curr with
    | none => []
    | some p =>
      if key.get keyIndex = (self.nodeList p).splitchar then
        keyIndex :: (keyIndex + 1) ::
          (if key.get (keyIndex + 1) = 0 then []
           else lookupReads self key fuel ((self.nodeList p).relatives TRIE_NODE_EQ_CHILD)
             (keyIndex + 1))
      else
        keyIndex :: keyIndex ::
          lookupReads self key fuel
            ((self.nodeList p).relatives
              (if key.get keyIndex < (self.nodeList p).splitchar then TRIE_NODE_LOW_CHILD
               else TRIE_NODE_HIGH_CHILD))
            keyIndex

/-- The key indices a call `Trie_Lookup( self, key )` reads. -/
def Trie_Lookup_reads (fuel : Nat) (self : TRIE) (key : CString) : List Nat :=
  lookupReads self key fuel self.root 0

/-- The key indices one pass of the `Trie_Insert` loop reads: the only read of
the body is `currentChar = key[ keyIndex ]`, made after the increment in the
branch `currentChar == (*curr)->splitchar`; a pass that goes on with a larger
key index has taken that branch. -/
def Step.reads (keyIndex : Nat) : Step → List Nat
  | Step.exit _ => []
  | Step.next _ _ keyIndex1 _ => if keyIndex1 = keyIndex then [] else [keyIndex1]

/-- The key indices the loop of `Trie_Insert` reads, in order. -/
def insertLoopReads (key : CString) (data : Option Nat) (keyLength : Int) :
    Nat → TRIE → Loc → Nat → Int → List Nat
  | 0, _, _, _, _ => []
  | fuel + 1, self, curr, keyIndex, currentChar =>
    (insertIter key data keyLength self curr keyIndex currentChar).reads keyIndex ++
      match insertIter key data keyLength self curr keyIndex currentChar with
      | Step.exit _ => []
      | Step.next self1 curr1 keyIndex1 currentChar1 =>
        insertLoopReads key data keyLength fuel self1 curr1 keyIndex1 currentChar1

/-- The key indices a call `Trie_Insert( self, key, data )` reads: `strlen`
reads up to and including the terminator, `key[ 0 ]` initialises `currentChar`,
then the loop runs. -/
def Trie_Insert_reads (fuel : Nat) (self : TRIE) (key : CString) (data : Option Nat) :
    List Nat :=
  List.range (strlen key + 1) ++ 0 ::
    insertLoopReads key data (int_of_size_t (strlen key)) fuel self Loc.root 0 (key.get 0)

/-! ## Predicates and auxiliary definitions used in the proofs -/

/-- Slots in use: the root slot `0` and the slots `2 .. nodeListIndex` handed
out by `Trie_Insert`. -/
def Allocated (t : TRIE) (n : Nat) : Prop := n = 0 ∨ (2 ≤ n ∧ n ≤ t.nodeListIndex)

/-- The places `curr` can point to: `&self->root` or a link field of a slot in use. -/
def LocOK (t : TRIE) : Loc → Prop
  | Loc.root => True
  | Loc.rel n _ => Allocated t n

/-- Structural invariant of the arena. -/
structure Inv (t : TRIE) : Prop where
  root : t.root = some 0
  idx : 1 ≤ t.nodeListIndex
  cap : t.nodeListIndex ≤ t.nodeListSize
  link : ∀ n k j, Allocated t n → (t.nodeList n).relatives k = some j →
    n < j ∧ 2 ≤ j ∧ j ≤ t.nodeListIndex
  inj : ∀ n n' k k' j, Allocated t n → Allocated t n' →
    (t.nodeList n).relatives k = some j → (t.nodeList n').relatives k' = some j →
    n = n' ∧ k = k'

/-- The trie `t'` extends `t`: nothing that `t` had in use was changed, except
that `NULL` links may have been filled in. -/
structure Ext (t t' : TRIE) : Prop where
  size : t'.nodeListSize = t.nodeListSize
  root : t'.root = t.root
  idx : t.nodeListIndex ≤ t'.nodeListIndex
  char : ∀ n, Allocated t n → (t'.nodeList n).splitchar = (t.nodeList n).splitchar
  data : ∀ n, Allocated t n → (t'.nodeList n).data = (t.nodeList n).data
  link : ∀ n k j, Allocated t n → (t.nodeList n).relatives k = some j →
    (t'.nodeList n).relatives k = some j

/-- The trie after the allocation block has run with `curr = &nodeList[n].relatives[k]`
and `currentChar = c` (before the payload is attached). -/
def allocNode (t : TRIE) (n : Nat) (k : Fin 3) (c : Int) : TRIE :=
  { nodeList := TrieNode_init
      (Function.update t.nodeList n
        { t.nodeList n with
          relatives := Function.update (t.nodeList n).relatives k (some (t.nodeListIndex + 1)) })
      (t.nodeListIndex + 1) c none
    nodeListSize := t.nodeListSize
    nodeListIndex := t.nodeListIndex + 1
    root := t.root
    wroteOutside := (t.wroteOutside || decide (t.nodeListSize ≤ n)) ||
      decide (t.nodeListSize ≤ t.nodeListIndex + 1) }

/-- The trie `Trie_new` builds when both allocations succeed. -/
def newTrie (mem : Nat → TRIE_NODE) (maxSize : Nat) : TRIE :=
  { nodeList := initLoop mem 0 (if maxSize < 1 then 1 else maxSize)
    nodeListSize := if maxSize < 1 then 1 else maxSize
    nodeListIndex := 1
    root := some 0
    wroteOutside := decide (blockSlots (if maxSize < 1 then 1 else maxSize) <
      (if maxSize < 1 then 1 else maxSize)) }

/-- Number of the slot that owns a location, plus one; `0` for `&self->root`. -/
def Loc.rank : Loc → Nat
  | Loc.root => 0
  | Loc.rel n _ => n + 1

/-- The value `Walk t key curr i` holds when a loop driven by `key` that starts at
`&self->root` with key index `0` can get to `curr` with key index `i` by
stepping down through existing nodes of `t`. -/
inductive Walk (t : TRIE) (key : CString) : Loc → Nat → Prop
  | start : Walk t key Loc.root 0
  | step {curr : Loc} {i p : Nat} {k : Fin 3} {i' : Nat} :
      Walk t key curr i → t.load curr = some p →
      ((key.get i = (t.nodeList p).splitchar ∧ k = TRIE_NODE_EQ_CHILD ∧ i' = i + 1) ∨
        (key.get i ≠ (t.nodeList p).splitchar ∧
          k = (if key.get i < (t.nodeList p).splitchar then TRIE_NODE_LOW_CHILD
               else TRIE_NODE_HIGH_CHILD) ∧ i' = i)) →
      Walk t key (Loc.rel p k) i'

/-- The key `k1` is the key `key` cut off after `L` characters: it has the same
bytes in front of index `L` and a `0` at index `L`. -/
def IsCut (k1 key : CString) (L : Int) : Prop :=
  ∃ m : Nat, (m : Int) = L ∧ (∀ x, x < m → k1.get x = key.get x) ∧ k1.get m = 0

/-- Every lookup that enters the sub-structure at pointer `p` with the key
index `i1` returns `NULL`, unless the call that built the sub-structure returned
`0` and the rest of the looked-up key from `i1` is the rest of the inserted key
from `i`. -/
def SubAnswers (t' : TRIE) (key : CString) (L : Int) (code : Int) (p : Option Nat)
    (i : Nat) : Prop :=
  ∀ (k1 : CString) (N i1 : Nat) (r : Option Nat), lookupLoop t' k1 N p i1 = some r →
    r = none ∨
      (code = 0 ∧ ∃ m, ((i + m : Nat) : Int) = L ∧
        (∀ x, x < m → k1.get (i1 + x) = key.get (i + x)) ∧ k1.get (i1 + m) = 0)

/-- A link field of a slot that `t` has in use is the same in `t'`, unless it is
the field `&nodeList[n].relatives[k]`. -/
def SameLinksBut (t t' : TRIE) (n : Nat) (k : Fin 3) : Prop :=
  ∀ (m : Nat) (k' : Fin 3), Allocated t m → ¬ (m = n ∧ k' = k) →
    (t'.nodeList m).relatives k' = (t.nodeList m).relatives k'

/-- The trie a call leaves behind; the trie `t` it was given when it did not return. -/
def InsertResult.trieOr (r : InsertResult) (t : TRIE) : TRIE :=
  match r with
  | InsertResult.returned _ t' => t'
  | _ => t

/-! ### Concrete data for the scenarios -/

/-- Some non-zero content for the memory `malloc` returns. -/
def garbage : Nat → TRIE_NODE := fun i => ⟨fun _ => some (i + 3), some 9, 5⟩

/-- Bytes found behind the terminator of the scenario keys. -/
def behind : Nat → Int := fun i => 120 + i

/-- The key `"foo"`. -/
def keyFoo : CString := ⟨[102, 111, 111], behind⟩

/-- The key `"edgar"`. -/
def keyEdgar : CString := ⟨[101, 100, 103, 97, 114], behind⟩

/-- The key `"for"`. -/
def keyFor : CString := ⟨[102, 111, 114], behind⟩

/-- The key `"fo"`. -/
def keyFo : CString := ⟨[102, 111], behind⟩

/-- The key `"f"`. -/
def keyF : CString := ⟨[102], behind⟩

/-- The key `"a"`. -/
def keyA : CString := ⟨[97], behind⟩

/-- The trie of the self-test in `main`: `Trie_new( 100 )`. -/
def test0 : TRIE := newTrie garbage 100

/-- The self-test trie after `Trie_Insert( testTrie, "foo", &n )`. -/
def test1 : TRIE := (Trie_Insert 200 test0 keyFoo (some 2142)).trieOr test0

/-- The self-test trie after `"edgar"` has been inserted as well. -/
def test2 : TRIE := (Trie_Insert 200 test1 keyEdgar (some 82)).trieOr test1

/-- The self-test trie after `"for"` has been inserted as well. -/
def test3 : TRIE := (Trie_Insert 200 test2 keyFor (some 84)).trieOr test2

/-- The self-test trie after `"foo"` has been inserted a second time. -/
def test1again : TRIE := (Trie_Insert 200 test1 keyFoo (some 7)).trieOr test1

/-- A trie of capacity `2` after `"a"` has been inserted. -/
def two1 : TRIE := (Trie_Insert 10 (newTrie garbage 2) keyA (some 1)).trieOr (newTrie garbage 2)

/-- A trie of capacity `8` after `"a"` has been inserted. -/
def eight1 : TRIE := (Trie_Insert 20 (newTrie garbage 8) keyA (some 1)).trieOr (newTrie garbage 8)

/-- A trie of capacity `8` after `"a"` has been inserted twice. -/
def eight2 : TRIE := (Trie_Insert 20 eight1 keyA (some 2)).trieOr eight1

/-- The value `Run t0 log t` holds when `t` comes from `t0` by the returning
`Trie_Insert` calls listed in `log`, oldest first, each with its key, its
payload and its return value. -/
inductive Run : TRIE → List (CString × Option Nat × Int) → TRIE → Prop
  | nil (t : TRIE) : Run t [] t
  | snoc {t0 : TRIE} {log : List (CString × Option Nat × Int)} {t : TRIE} (fuel : Nat)
      (key : CString) (data : Option Nat) (code : Int) (t' : TRIE) :
      Run t0 log t → Trie_Insert fuel t key data = InsertResult.returned code t' →
      Run t0 (log ++ [(key, data, code)]) t'

/-- What `TrieNode_init( node, 0, NULL )` leaves in a slot. -/
def blankNode : TRIE_NODE := { splitchar := 0, data := none, relatives := fun _ => none }

/-- Slots of the malloc-ed block that no call has handed out are as `Trie_new`
left them. -/
def Untouched (t : TRIE) : Prop :=
  ∀ m, m < t.nodeListSize → ¬ Allocated t m → t.nodeList m = blankNode

/-- The slot `b` is a child of the slot `a`. -/
def ChildOf (t : TRIE) (a b : Nat) : Prop := ∃ k, (t.nodeList a).relatives k = some b

/-- The empty key `""`. -/
def keyEmpty : CString := ⟨[], behind⟩

/-- The self-test trie after `"foo"`, on which the insertion of `"fo"` was attempted. -/
def test1fo : TRIE := (Trie_Insert 200 test1 keyFo (some 7)).trieOr test1

/-- Slot `b` can be reached from slot `a` through low and high links only. -/
inductive LHReach (t : TRIE) : Nat → Nat → Prop
  | refl (a : Nat) : LHReach t a a
  | step {a b c : Nat} (k : Fin 3) : LHReach t a b → k ≠ TRIE_NODE_EQ_CHILD →
      (t.nodeList b).relatives k = some c → LHReach t a c

/-- The link fields met when going down from `&nodeList[n].relatives[side]`
through low and high links only. -/
inductive LHLoc (t : TRIE) (n : Nat) (side : Fin 3) : Loc → Prop
  | here : LHLoc t n side (Loc.rel n side)
  | down {l : Loc} {b : Nat} (k : Fin 3) : LHLoc t n side l → t.load l = some b →
      k ≠ TRIE_NODE_EQ_CHILD → LHLoc t n side (Loc.rel b k)

/-- Ordering of the split characters: whatever hangs below the low link of a
slot in use, through low and high links, has a smaller split character, and
whatever hangs below its high link has a larger one. -/
def Ordered (t : TRIE) : Prop :=
  ∀ (n : Nat) (side : Fin 3) (l : Loc) (b : Nat), Allocated t n → LHLoc t n side l →
    t.load l = some b →
    (side = TRIE_NODE_LOW_CHILD → (t.nodeList b).splitchar < (t.nodeList n).splitchar) ∧
      (side = TRIE_NODE_HIGH_CHILD → (t.nodeList n).splitchar < (t.nodeList b).splitchar)

/-- The character `c` fits at the link field `curr`: it is smaller than the
split character of every slot that has `curr` below its low link and larger
than that of every slot that has `curr` below its high link. -/
def Bounded (t : TRIE) (curr : Loc) (c : Int) : Prop :=
  ∀ (n : Nat) (side : Fin 3), Allocated t n → LHLoc t n side curr →
    (side = TRIE_NODE_LOW_CHILD → c < (t.nodeList n).splitchar) ∧
      (side = TRIE_NODE_HIGH_CHILD → (t.nodeList n).splitchar < c)

/-- A key of `2^32 + 1` characters `'a'`. -/
def hugeKey : CString := ⟨List.replicate (2 ^ 32 + 1) 97, behind⟩

/-- The self-test trie after `Trie_Insert( testTrie, hugeKey, ... )`. -/
def hugeTrie : TRIE := (Trie_Insert 200 test0 hugeKey (some 77)).trieOr test0

/-- A key of six characters `'a'`. -/
def keySixA : CString := ⟨[97, 97, 97, 97, 97, 97], behind⟩

/-! ## Facts about keys -/

theorem takeWhile_spec (l : List Int) :
    (∀ j, j < (l.takeWhile (fun c => decide (c ≠ 0))).length →
        l.getD j 0 = (l.takeWhile (fun c => decide (c ≠ 0))).getD j 0 ∧ l.getD j 0 ≠ 0) ∧
      (l.takeWhile (fun c => decide (c ≠ 0))).length ≤ l.length ∧
      l.getD (l.takeWhile (fun c => decide (c ≠ 0))).length 0 = 0 := by
  induction l with
  | nil => simp
  | cons a l ih =>
    by_cases ha : a = 0
    · subst ha
      simp [List.takeWhile]
    · have htw : (a :: l).takeWhile (fun c => decide (c ≠ 0)) =
          a :: l.takeWhile (fun c => decide (c ≠ 0)) := by
        simp [List.takeWhile, ha]
      rw [htw]
      obtain ⟨h1, h2, h3⟩ := ih
      refine ⟨?_, ?_, ?_⟩
      · intro j hj
        cases j with
        | zero => simpa using ha
        | succ j =>
          have hj2 : j < (l.takeWhile (fun c => decide (c ≠ 0))).length := by
            simpa using hj
          simpa using h1 j hj2
      · simpa using h2
      · simpa using h3

theorem strlen_le (key : CString) : strlen key ≤ key.chars.length :=
  (takeWhile_spec key.chars).2.1

theorem get_of_lt_strlen (key : CString) (j : Nat) (hj : j < strlen key) :
    key.get j = key.text.getD j 0 ∧ key.get j ≠ 0 := by
  have hle := strlen_le key
  have hlt : j < key.chars.length := lt_of_lt_of_le hj hle
  have h := (takeWhile_spec key.chars).1 j hj
  unfold CString.get
  rw [if_pos hlt]
  exact h

theorem get_strlen (key : CString) : key.get (strlen key) = 0 := by
  have hle := strlen_le key
  have h := (takeWhile_spec key.chars).2.2
  unfold CString.get
  by_cases hlt : strlen key < key.chars.length
  · rw [if_pos hlt]
    exact h
  · rw [if_neg hlt]
    have : strlen key = key.chars.length := le_antisymm hle (not_lt.mp hlt)
    rw [if_pos this]

/-- Two buffers that agree in front of the terminator of the second, the first
having a `0` where the second has its terminator, denote the same string. -/
theorem text_eq_of_get (k1 k2 : CString)
    (h : ∀ j, j < strlen k2 → k1.get j = k2.get j) (h0 : k1.get (strlen k2) = 0) :
    k1.text = k2.text := by
  have hlen : strlen k1 = strlen k2 := by
    rcases Nat.lt_trichotomy (strlen k1) (strlen k2) with hlt | heq | hgt
    · exfalso
      have e1 := get_strlen k1
      have e2 := (get_of_lt_strlen k2 _ hlt).2
      rw [← h _ hlt] at e2
      exact e2 e1
    · exact heq
    · exfalso
      exact (get_of_lt_strlen k1 _ hgt).2 h0
  apply List.ext_getElem
  · exact hlen
  · intro j hj1 hj2
    have a1 := (get_of_lt_strlen k1 j hj1).1
    have a2 := (get_of_lt_strlen k2 j hj2).1
    have := h j hj2
    rw [a1, a2] at this
    have e1 : k1.text.getD j 0 = k1.text[j] := List.getD_eq_getElem _ _ hj1
    have e2 : k2.text.getD j 0 = k2.text[j] := List.getD_eq_getElem _ _ hj2
    rw [e1, e2] at this
    exact this

theorem strlen_pos_iff (key : CString) : 0 < strlen key ↔ key.get 0 ≠ 0 := by
  constructor
  · intro h
    exact (get_of_lt_strlen key 0 h).2
  · intro h
    by_contra hn
    have : strlen key = 0 := by omega
    have e := get_strlen key
    rw [this] at e
    exact h e

/-! ## Shape of reachable tries -/

theorem Ext.refl (t : TRIE) : Ext t t :=
  ⟨rfl, rfl, le_refl _, fun _ _ => rfl, fun _ _ => rfl, fun _ _ _ _ h => h⟩

theorem Allocated.mono {t t' : TRIE} {n : Nat} (h : Allocated t n)
    (hle : t.nodeListIndex ≤ t'.nodeListIndex) : Allocated t' n := by
  rcases h with h | ⟨h1, h2⟩
  · exact Or.inl h
  · exact Or.inr ⟨h1, le_trans h2 hle⟩

theorem Ext.trans {t t1 t2 : TRIE} (h1 : Ext t t1) (h2 : Ext t1 t2) : Ext t t2 where
  size := by rw [h2.size, h1.size]
  root := by rw [h2.root, h1.root]
  idx := le_trans h1.idx h2.idx
  char := fun n hn => by rw [h2.char n (hn.mono h1.idx), h1.char n hn]
  data := fun n hn => by rw [h2.data n (hn.mono h1.idx), h1.data n hn]
  link := fun n k j hn h => h2.link n k j (hn.mono h1.idx) (h1.link n k j hn h)

theorem Allocated.ne_next {t : TRIE} {n : Nat} (h : Allocated t n) (hI : Inv t) :
    n ≠ t.nodeListIndex + 1 := by
  have := hI.idx
  rcases h with h | ⟨_, h2⟩ <;> omega

theorem Inv.load_allocated {t : TRIE} (hI : Inv t) {curr : Loc} (hL : LocOK t curr) {p : Nat}
    (h : t.load curr = some p) : Allocated t p := by
  cases curr with
  | root =>
    have : t.root = some p := h
    rw [hI.root] at this
    left
    exact (Option.some.inj this).symm
  | rel n k =>
    obtain ⟨_, h2, h3⟩ := hI.link n k p hL h
    exact Or.inr ⟨h2, h3⟩

/-! ## The allocation block of `Trie_Insert` -/

@[simp] theorem allocNode_size (t : TRIE) (n : Nat) (k : Fin 3) (c : Int) :
    (allocNode t n k c).nodeListSize = t.nodeListSize := rfl

@[simp] theorem allocNode_index (t : TRIE) (n : Nat) (k : Fin 3) (c : Int) :
    (allocNode t n k c).nodeListIndex = t.nodeListIndex + 1 := rfl

@[simp] theorem allocNode_root (t : TRIE) (n : Nat) (k : Fin 3) (c : Int) :
    (allocNode t n k c).root = t.root := rfl

theorem allocNode_new (t : TRIE) (n : Nat) (k : Fin 3) (c : Int) :
    (allocNode t n k c).nodeList (t.nodeListIndex + 1) =
      { splitchar := c, data := none, relatives := fun _ => none } := by
  simp [allocNode, TrieNode_init]

theorem allocNode_splitchar (t : TRIE) (n : Nat) (k : Fin 3) (c : Int) (m : Nat)
    (hm : m ≠ t.nodeListIndex + 1) :
    ((allocNode t n k c).nodeList m).splitchar = (t.nodeList m).splitchar := by
  by_cases h : m = n
  · subst h; simp [allocNode, TrieNode_init, Function.update, hm]
  · simp [allocNode, TrieNode_init, Function.update, hm, h]

theorem allocNode_data (t : TRIE) (n : Nat) (k : Fin 3) (c : Int) (m : Nat)
    (hm : m ≠ t.nodeListIndex + 1) :
    ((allocNode t n k c).nodeList m).data = (t.nodeList m).data := by
  by_cases h : m = n
  · subst h; simp [allocNode, TrieNode_init, Function.update, hm]
  · simp [allocNode, TrieNode_init, Function.update, hm, h]

theorem allocNode_link_self (t : TRIE) (n : Nat) (k : Fin 3) (c : Int)
    (hn : n ≠ t.nodeListIndex + 1) :
    ((allocNode t n k c).nodeList n).relatives k = some (t.nodeListIndex + 1) := by
  simp [allocNode, TrieNode_init, Function.update, hn]

theorem allocNode_link_other (t : TRIE) (n : Nat) (k : Fin 3) (c : Int) (m : Nat) (k' : Fin 3)
    (hm : m ≠ t.nodeListIndex + 1) (hne : ¬ (m = n ∧ k' = k)) :
    ((allocNode t n k c).nodeList m).relatives k' = (t.nodeList m).relatives k' := by
  by_cases h : m = n
  · subst h
    have hk : k' ≠ k := fun e => hne ⟨rfl, e⟩
    simp [allocNode, TrieNode_init, Function.update, hm, hk]
  · simp [allocNode, TrieNode_init, Function.update, hm, h]

@[simp] theorem setData_size (t : TRIE) (p : Nat) (d : Option Nat) :
    (t.setData p d).nodeListSize = t.nodeListSize := rfl

@[simp] theorem setData_index (t : TRIE) (p : Nat) (d : Option Nat) :
    (t.setData p d).nodeListIndex = t.nodeListIndex := rfl

@[simp] theorem setData_root (t : TRIE) (p : Nat) (d : Option Nat) :
    (t.setData p d).root = t.root := rfl

@[simp] theorem setData_relatives (t : TRIE) (p : Nat) (d : Option Nat) (m : Nat) :
    ((t.setData p d).nodeList m).relatives = (t.nodeList m).relatives := by
  by_cases h : m = p
  · subst h; simp [TRIE.setData]
  · simp [TRIE.setData, Function.update, h]

@[simp] theorem setData_splitchar (t : TRIE) (p : Nat) (d : Option Nat) (m : Nat) :
    ((t.setData p d).nodeList m).splitchar = (t.nodeList m).splitchar := by
  by_cases h : m = p
  · subst h; simp [TRIE.setData]
  · simp [TRIE.setData, Function.update, h]

theorem setData_data_self (t : TRIE) (p : Nat) (d : Option Nat) :
    ((t.setData p d).nodeList p).data = d := by
  simp [TRIE.setData]

theorem setData_data_other (t : TRIE) (p : Nat) (d : Option Nat) (m : Nat) (h : m ≠ p) :
    ((t.setData p d).nodeList m).data = (t.nodeList m).data := by
  simp [TRIE.setData, Function.update, h]

theorem Inv.withData {t : TRIE} (hI : Inv t) (p : Nat) (d : Option Nat) :
    Inv (t.setData p d) where
  root := hI.root
  idx := hI.idx
  cap := hI.cap
  link := fun n k j hn h => by
    rw [setData_relatives] at h
    exact hI.link n k j hn h
  inj := fun n n' k k' j hn hn' h h' => by
    rw [setData_relatives] at h h'
    exact hI.inj n n' k k' j hn hn' h h'

theorem allocNode_allocated {t : TRIE} {n : Nat} {k : Fin 3} {c : Int} {m : Nat}
    (hm : Allocated (allocNode t n k c) m) :
    m = t.nodeListIndex + 1 ∨ Allocated t m := by
  rcases hm with h | ⟨h1, h2⟩
  · exact Or.inr (Or.inl h)
  · rw [allocNode_index] at h2
    by_cases e : m = t.nodeListIndex + 1
    · exact Or.inl e
    · exact Or.inr (Or.inr ⟨h1, by omega⟩)

/-- Links of the trie after an allocation: the new slot has none, the slot that
owns `curr` has the new one, everything else is as before. -/
theorem allocNode_link_cases {t : TRIE} (hI : Inv t) {n : Nat} (hn : Allocated t n)
    {k : Fin 3} (hnull : (t.nodeList n).relatives k = none) {c : Int} {m : Nat} {k' : Fin 3}
    {j : Nat} (hm : Allocated (allocNode t n k c) m)
    (h : ((allocNode t n k c).nodeList m).relatives k' = some j) :
    (m = n ∧ k' = k ∧ j = t.nodeListIndex + 1) ∨
      (Allocated t m ∧ (t.nodeList m).relatives k' = some j ∧ ¬ (m = n ∧ k' = k)) := by
  rcases allocNode_allocated hm with e | ha
  · subst e
    rw [allocNode_new] at h
    simp at h
  · have hne := ha.ne_next hI
    by_cases hc : m = n ∧ k' = k
    · obtain ⟨e1, e2⟩ := hc
      subst e1 e2
      rw [allocNode_link_self t m k' c hne] at h
      exact Or.inl ⟨rfl, rfl, (Option.some.inj h).symm⟩
    · rw [allocNode_link_other t n k c m k' hne hc] at h
      exact Or.inr ⟨ha, h, hc⟩

theorem Inv.alloc {t : TRIE} (hI : Inv t) {n : Nat} (hn : Allocated t n) {k : Fin 3}
    (hnull : (t.nodeList n).relatives k = none) (hcap : t.nodeListIndex < t.nodeListSize)
    (c : Int) : Inv (allocNode t n k c) where
  root := hI.root
  idx := by rw [allocNode_index]; omega
  cap := by rw [allocNode_index, allocNode_size]; omega
  link := fun m k' j hm h => by
    rw [allocNode_index]
    have hidx := hI.idx
    rcases allocNode_link_cases hI hn hnull hm h with ⟨e1, _, e3⟩ | ⟨ha, hl, _⟩
    · subst e1 e3
      have := hn.ne_next hI
      rcases hn with h0 | ⟨_, h2⟩ <;> omega
    · obtain ⟨a, b, c'⟩ := hI.link m k' j ha hl
      exact ⟨a, b, by omega⟩
  inj := fun m m' k1 k2 j hm hm' h h' => by
    rcases allocNode_link_cases hI hn hnull hm h with ⟨e1, e2, e3⟩ | ⟨ha, hl, _⟩
    · rcases allocNode_link_cases hI hn hnull hm' h' with ⟨f1, f2, _⟩ | ⟨ha', hl', _⟩
      · exact ⟨by rw [e1, f1], by rw [e2, f2]⟩
      · exfalso
        have := (hI.link m' k2 j ha' hl').2.2
        omega
    · rcases allocNode_link_cases hI hn hnull hm' h' with ⟨_, _, f3⟩ | ⟨ha', hl', _⟩
      · exfalso
        have := (hI.link m k1 j ha hl).2.2
        omega
      · exact hI.inj m m' k1 k2 j ha ha' hl hl'

theorem Ext.ofAlloc {t : TRIE} (hI : Inv t) {n : Nat} (hn : Allocated t n) {k : Fin 3}
    (hnull : (t.nodeList n).relatives k = none) (c : Int) : Ext t (allocNode t n k c) where
  size := rfl
  root := rfl
  idx := by rw [allocNode_index]; omega
  char := fun m hm => allocNode_splitchar t n k c m (hm.ne_next hI)
  data := fun m hm => allocNode_data t n k c m (hm.ne_next hI)
  link := fun m k' j hm h => by
    have hne := hm.ne_next hI
    by_cases hc : m = n ∧ k' = k
    · obtain ⟨e1, e2⟩ := hc
      subst e1 e2
      rw [hnull] at h
      exact absurd h (by simp)
    · rw [allocNode_link_other t n k c m k' hne hc]
      exact h

theorem Ext.alloc_withData {t : TRIE} (hI : Inv t) {n : Nat} (hn : Allocated t n)
    {k : Fin 3} (hnull : (t.nodeList n).relatives k = none) (c : Int) (d : Option Nat) :
    Ext t ((allocNode t n k c).setData (t.nodeListIndex + 1) d) where
  size := rfl
  root := rfl
  idx := by rw [setData_index, allocNode_index]; omega
  char := fun m hm => by
    rw [setData_splitchar]
    exact (Ext.ofAlloc hI hn hnull c).char m hm
  data := fun m hm => by
    rw [setData_data_other _ _ _ _ (hm.ne_next hI)]
    exact (Ext.ofAlloc hI hn hnull c).data m hm
  link := fun m k' j hm h => by
    rw [setData_relatives]
    exact (Ext.ofAlloc hI hn hnull c).link m k' j hm h

/-! ## One pass of the insert loop, case by case -/

theorem compareStep_some {key : CString} {t : TRIE} {curr : Loc} {p : Nat}
    (h : t.load curr = some p) (i : Nat) (c : Int) :
    compareStep key t curr i c =
      if c = (t.nodeList p).splitchar then
        Step.next t (Loc.rel p TRIE_NODE_EQ_CHILD) (i + 1) (key.get (i + 1))
      else
        Step.next t
          (Loc.rel p
            (if c < (t.nodeList p).splitchar then TRIE_NODE_LOW_CHILD
             else TRIE_NODE_HIGH_CHILD)) i c := by
  simp [compareStep, h]

/-- The four ways one pass of the loop body can go in a well-shaped trie:
step down through an existing node; give up because the arena is used up;
allocate the node of the last key character and return; allocate a node and
continue below it. -/
theorem insertIter_cases (key : CString) (d : Option Nat) (L : Int) {t : TRIE} (hI : Inv t)
    {curr : Loc} (hL : LocOK t curr) (i : Nat) (c : Int) :
    (∃ p, t.load curr = some p ∧ Allocated t p ∧
        insertIter key d L t curr i c =
          if c = (t.nodeList p).splitchar then
            Step.next t (Loc.rel p TRIE_NODE_EQ_CHILD) (i + 1) (key.get (i + 1))
          else
            Step.next t
              (Loc.rel p
                (if c < (t.nodeList p).splitchar then TRIE_NODE_LOW_CHILD
                 else TRIE_NODE_HIGH_CHILD)) i c) ∨
    (t.load curr = none ∧ t.nodeListSize ≤ t.nodeListIndex ∧
        insertIter key d L t curr i c = Step.exit (InsertResult.returned (-1) t)) ∨
    (∃ n k, curr = Loc.rel n k ∧ Allocated t n ∧ (t.nodeList n).relatives k = none ∧
        t.nodeListIndex < t.nodeListSize ∧ (i : Int) = L - 1 ∧
        insertIter key d L t curr i c =
          Step.exit (InsertResult.returned 0
            ((allocNode t n k c).setData (t.nodeListIndex + 1) d))) ∨
    (∃ n k, curr = Loc.rel n k ∧ Allocated t n ∧ (t.nodeList n).relatives k = none ∧
        t.nodeListIndex < t.nodeListSize ∧ (i : Int) ≠ L - 1 ∧
        insertIter key d L t curr i c =
          Step.next (allocNode t n k c) (Loc.rel (t.nodeListIndex + 1) TRIE_NODE_EQ_CHILD)
            (i + 1) (key.get (i + 1))) := by
  cases hload : t.load curr with
  | some p =>
    left
    refine ⟨p, rfl, hI.load_allocated hL hload, ?_⟩
    simp only [insertIter, hload]
    exact compareStep_some hload i c
  | none =>
    right
    by_cases hcap : t.nodeListSize ≤ t.nodeListIndex
    · left
      refine ⟨rfl, hcap, ?_⟩
      simp [insertIter, hload, hcap]
    · right
      have hlt : t.nodeListIndex < t.nodeListSize := not_le.mp hcap
      cases curr with
      | root =>
        exfalso
        have : t.root = none := hload
        rw [hI.root] at this
        exact absurd this (by simp)
      | rel n k =>
        have hn : Allocated t n := hL
        have hne : n ≠ t.nodeListIndex + 1 := hn.ne_next hI
        have hne' : t.nodeListIndex + 1 ≠ n := fun e => hne e.symm
        have hnull : (t.nodeList n).relatives k = none := hload
        by_cases hend : (i : Int) = L - 1
        · left
          refine ⟨n, k, rfl, hn, hnull, hlt, hend, ?_⟩
          simp [insertIter, TRIE.load, TRIE.store, TRIE.initNode, hnull, hcap, hend,
            TrieNode_init, Function.update, hne, hne', allocNode]
        · right
          refine ⟨n, k, rfl, hn, hnull, hlt, hend, ?_⟩
          simp [insertIter, TRIE.load, TRIE.store, TRIE.initNode, hnull, hcap, hend,
            TrieNode_init, Function.update, hne, hne', allocNode, compareStep]

/-! ## The insert loop keeps the shape and only extends the trie -/

theorem insertLoop_succ (key : CString) (d : Option Nat) (L : Int) (fuel : Nat) (t : TRIE)
    (curr : Loc) (i : Nat) (c : Int) :
    insertLoop key d L (fuel + 1) t curr i c =
      match insertIter key d L t curr i c with
      | Step.exit r => r
      | Step.next t1 curr1 i1 c1 => insertLoop key d L fuel t1 curr1 i1 c1 := rfl

theorem allocNode_locOK (t : TRIE) (hI : Inv t) (n : Nat) (k : Fin 3) (c : Int) (k' : Fin 3) :
    LocOK (allocNode t n k c) (Loc.rel (t.nodeListIndex + 1) k') := by
  have := hI.idx
  exact Or.inr ⟨by omega, le_refl _⟩

theorem insertLoop_inv (key : CString) (d : Option Nat) (L : Int) :
    ∀ (fuel : Nat) (t : TRIE) (curr : Loc) (i : Nat) (c : Int) (code : Int) (t' : TRIE),
      Inv t → LocOK t curr →
      insertLoop key d L fuel t curr i c = InsertResult.returned code t' →
      Inv t' ∧ Ext t t' := by
  intro fuel
  induction fuel with
  | zero =>
    intro t curr i c code t' _ _ h
    simp [insertLoop] at h
  | succ fuel ih =>
    intro t curr i c code t' hI hL h
    rw [insertLoop_succ] at h
    rcases insertIter_cases key d L hI hL i c with
      ⟨p, _, hp, e⟩ | ⟨_, _, e⟩ | ⟨n, k, _, hn, hnull, hlt, _, e⟩ |
      ⟨n, k, _, hn, hnull, hlt, _, e⟩
    · rw [e] at h
      split_ifs at h
      · exact ih _ (Loc.rel p _) _ _ _ _ hI hp h
      · exact ih _ (Loc.rel p _) _ _ _ _ hI hp h
      · exact ih _ (Loc.rel p _) _ _ _ _ hI hp h
    · rw [e] at h
      simp only [InsertResult.returned.injEq] at h
      obtain ⟨_, rfl⟩ := h
      exact ⟨hI, Ext.refl t⟩
    · rw [e] at h
      simp only [InsertResult.returned.injEq] at h
      obtain ⟨_, rfl⟩ := h
      exact ⟨(hI.alloc hn hnull hlt c).withData _ _, Ext.alloc_withData hI hn hnull c d⟩
    · rw [e] at h
      obtain ⟨h1, h2⟩ := ih _ _ _ _ _ _ (hI.alloc hn hnull hlt c)
        (allocNode_locOK t hI n k c _) h
      exact ⟨h1, (Ext.ofAlloc hI hn hnull c).trans h2⟩

/-- A call can only return `0` from a pass whose key index is `keyLength - 1`,
and the index never decreases. -/
theorem insertLoop_zero_index (key : CString) (d : Option Nat) (L : Int) :
    ∀ (fuel : Nat) (t : TRIE) (curr : Loc) (i : Nat) (c : Int) (t' : TRIE),
      Inv t → LocOK t curr →
      insertLoop key d L fuel t curr i c = InsertResult.returned 0 t' →
      (i : Int) ≤ L - 1 := by
  intro fuel
  induction fuel with
  | zero =>
    intro t curr i c t' _ _ h
    simp [insertLoop] at h
  | succ fuel ih =>
    intro t curr i c t' hI hL h
    rw [insertLoop_succ] at h
    rcases insertIter_cases key d L hI hL i c with
      ⟨p, _, hp, e⟩ | ⟨_, _, e⟩ | ⟨n, k, _, hn, hnull, hlt, hend, e⟩ |
      ⟨n, k, _, hn, hnull, hlt, _, e⟩
    · rw [e] at h
      split_ifs at h
      · have := ih _ (Loc.rel p _) _ _ _ hI hp h
        push_cast at this
        omega
      · exact ih _ (Loc.rel p _) _ _ _ hI hp h
      · exact ih _ (Loc.rel p _) _ _ _ hI hp h
    · rw [e] at h
      simp only [InsertResult.returned.injEq] at h
      omega
    · omega
    · rw [e] at h
      have := ih _ _ _ _ _ (hI.alloc hn hnull hlt c) (allocNode_locOK t hI n k c _) h
      push_cast at this
      omega

/-- A call that returns `-1` leaves the cursor at the arena size. -/
theorem insertLoop_fail_index (key : CString) (d : Option Nat) (L : Int) :
    ∀ (fuel : Nat) (t : TRIE) (curr : Loc) (i : Nat) (c : Int) (code : Int) (t' : TRIE),
      Inv t → LocOK t curr →
      insertLoop key d L fuel t curr i c = InsertResult.returned code t' →
      (code = 0 ∨ code = -1) ∧ (code = -1 → t'.nodeListIndex = t'.nodeListSize) ∧
      (code = 0 → t.nodeListIndex < t'.nodeListIndex) := by
  intro fuel
  induction fuel with
  | zero =>
    intro t curr i c code t' _ _ h
    simp [insertLoop] at h
  | succ fuel ih =>
    intro t curr i c code t' hI hL h
    rw [insertLoop_succ] at h
    rcases insertIter_cases key d L hI hL i c with
      ⟨p, _, hp, e⟩ | ⟨_, hfull, e⟩ | ⟨n, k, _, hn, hnull, hlt, hend, e⟩ |
      ⟨n, k, _, hn, hnull, hlt, _, e⟩
    · rw [e] at h
      split_ifs at h
      · exact ih _ (Loc.rel p _) _ _ _ _ hI hp h
      · exact ih _ (Loc.rel p _) _ _ _ _ hI hp h
      · exact ih _ (Loc.rel p _) _ _ _ _ hI hp h
    · rw [e] at h
      simp only [InsertResult.returned.injEq] at h
      obtain ⟨rfl, rfl⟩ := h
      have := hI.cap
      exact ⟨Or.inr rfl, fun _ => by omega, fun h0 => by omega⟩
    · rw [e] at h
      simp only [InsertResult.returned.injEq] at h
      obtain ⟨rfl, rfl⟩ := h
      refine ⟨Or.inl rfl, fun h0 => by omega, fun _ => ?_⟩
      rw [setData_index, allocNode_index]
      omega
    · rw [e] at h
      obtain ⟨h1, h2, h3⟩ := ih _ _ _ _ _ _ (hI.alloc hn hnull hlt c)
        (allocNode_locOK t hI n k c _) h
      refine ⟨h1, h2, fun h0 => ?_⟩
      have := h3 h0
      rw [allocNode_index] at this
      omega

/-! ## Construction -/

theorem initLoop_apply (n : Nat) : ∀ (mem : Nat → TRIE_NODE) (i m : Nat),
    initLoop mem i n m =
      if i ≤ m ∧ m < i + n then
        { splitchar := 0, data := none, relatives := fun _ => none }
      else mem m := by
  induction n with
  | zero =>
    intro mem i m
    have : ¬ (i ≤ m ∧ m < i + 0) := by omega
    rw [if_neg this]
    rfl
  | succ n ih =>
    intro mem i m
    rw [initLoop, ih]
    by_cases h1 : i + 1 ≤ m ∧ m < i + 1 + n
    · have h2 : i ≤ m ∧ m < i + (n + 1) := by omega
      rw [if_pos h1, if_pos h2]
    · rw [if_neg h1]
      by_cases h3 : m = i
      · subst h3
        have h2 : m ≤ m ∧ m < m + (n + 1) := by omega
        rw [if_pos h2]
        simp [TrieNode_init]
      · have h2 : ¬ (i ≤ m ∧ m < i + (n + 1)) := by omega
        rw [if_neg h2]
        simp [TrieNode_init, Function.update, h3]

theorem Trie_new_ok (mem : Nat → TRIE_NODE) (maxSize : Nat) :
    Trie_new true (some mem) maxSize = some (newTrie mem maxSize) := rfl

theorem Trie_new_some {a : Bool} {b : Option (Nat → TRIE_NODE)} {maxSize : Nat} {t : TRIE}
    (h : Trie_new a b maxSize = some t) : ∃ mem, t = newTrie mem maxSize := by
  cases a with
  | false => simp [Trie_new] at h
  | true =>
    cases b with
    | none => simp [Trie_new] at h
    | some mem =>
      rw [Trie_new_ok] at h
      exact ⟨mem, (Option.some.inj h).symm⟩

theorem newTrie_node (mem : Nat → TRIE_NODE) (maxSize : Nat) (m : Nat)
    (hm : m < (newTrie mem maxSize).nodeListSize) :
    (newTrie mem maxSize).nodeList m =
      { splitchar := 0, data := none, relatives := fun _ => none } := by
  have h : 0 ≤ m ∧ m < 0 + (if maxSize < 1 then 1 else maxSize) := ⟨Nat.zero_le _, by
    simpa [newTrie] using hm⟩
  show initLoop mem 0 (if maxSize < 1 then 1 else maxSize) m = _
  rw [initLoop_apply, if_pos h]

theorem newTrie_size_pos (mem : Nat → TRIE_NODE) (maxSize : Nat) :
    1 ≤ (newTrie mem maxSize).nodeListSize := by
  show 1 ≤ (if maxSize < 1 then 1 else maxSize)
  split_ifs <;> omega

theorem newTrie_inv (mem : Nat → TRIE_NODE) (maxSize : Nat) : Inv (newTrie mem maxSize) := by
  have hpos := newTrie_size_pos mem maxSize
  have h0 := newTrie_node mem maxSize 0 (by omega)
  have hall : ∀ n, Allocated (newTrie mem maxSize) n → n = 0 := by
    intro n hn
    rcases hn with h | ⟨h1, h2⟩
    · exact h
    · have : (newTrie mem maxSize).nodeListIndex = 1 := rfl
      omega
  refine ⟨rfl, le_refl _, hpos, ?_, ?_⟩
  · intro n k j hn h
    rw [hall n hn, h0] at h
    simp at h
  · intro n n' k k' j hn _ h _
    rw [hall n hn, h0] at h
    simp at h

theorem Reachable.inv {t : TRIE} (h : Reachable t) : Inv t := by
  induction h with
  | new a b n t h =>
    obtain ⟨mem, rfl⟩ := Trie_new_some h
    exact newTrie_inv mem n
  | insert t t' fuel key data code _ hins ih =>
    exact (insertLoop_inv key data _ fuel t Loc.root 0 _ code t' ih trivial hins).1

theorem Reachable.size_pos {t : TRIE} (h : Reachable t) : 1 ≤ t.nodeListSize :=
  le_trans h.inv.idx h.inv.cap

/-! ## Termination and fuel -/

theorem lookupLoop_mono (t : TRIE) (key : CString) :
    ∀ (fuel : Nat) (p : Option Nat) (i : Nat) (r : Option Nat) (extra : Nat),
      lookupLoop t key fuel p i = some r → lookupLoop t key (fuel + extra) p i = some r := by
  intro fuel
  induction fuel with
  | zero =>
    intro p i r extra h
    simp [lookupLoop] at h
  | succ fuel ih =>
    intro p i r extra h
    have e : fuel + 1 + extra = (fuel + extra) + 1 := by omega
    rw [e]
    cases p with
    | none =>
      simp only [lookupLoop] at h ⊢
      exact h
    | some q =>
      simp only [lookupLoop] at h ⊢
      split_ifs at h ⊢
      · exact h
      · exact ih _ _ _ _ h
      · exact ih _ _ _ _ h
      · exact ih _ _ _ _ h

/-- The lookup loop returns within `nodeListIndex + 2` passes: every pass moves
to a slot with a larger number. -/
theorem lookupLoop_terminates {t : TRIE} (hI : Inv t) (key : CString) :
    ∀ (fuel : Nat) (p : Option Nat) (i : Nat),
      (∀ q, p = some q → Allocated t q ∧ t.nodeListIndex + 2 ≤ fuel + q) → 1 ≤ fuel →
      ∃ r, lookupLoop t key fuel p i = some r := by
  intro fuel
  induction fuel with
  | zero =>
    intro p i _ h
    omega
  | succ fuel ih =>
    intro p i hp _
    cases p with
    | none => exact ⟨none, rfl⟩
    | some q =>
      obtain ⟨hq, hfuel⟩ := hp q rfl
      have hqle : q ≤ t.nodeListIndex := by
        rcases hq with h | ⟨_, h⟩ <;> omega
      have hnext : ∀ (k : Fin 3) (i' : Nat),
          ∃ r, lookupLoop t key fuel ((t.nodeList q).relatives k) i' = some r := by
        intro k i'
        apply ih
        · intro j hj
          obtain ⟨a, b, c⟩ := hI.link q k j hq hj
          exact ⟨Or.inr ⟨b, c⟩, by omega⟩
        · omega
      simp only [lookupLoop]
      split_ifs
      · exact ⟨_, rfl⟩
      · exact hnext _ _
      · exact hnext _ _
      · exact hnext _ _

theorem Trie_Lookup_terminates {t : TRIE} (hI : Inv t) (key : CString) (fuel : Nat)
    (hf : t.nodeListIndex + 2 ≤ fuel) : ∃ r, Trie_Lookup fuel t key = some r := by
  unfold Trie_Lookup
  apply lookupLoop_terminates hI
  · intro q hq
    rw [hI.root] at hq
    have : q = 0 := (Option.some.inj hq).symm
    subst this
    exact ⟨Or.inl rfl, by omega⟩
  · omega

theorem insertLoop_mono (key : CString) (d : Option Nat) (L : Int) :
    ∀ (fuel : Nat) (t : TRIE) (curr : Loc) (i : Nat) (c : Int) (code : Int) (t' : TRIE)
      (extra : Nat),
      insertLoop key d L fuel t curr i c = InsertResult.returned code t' →
      insertLoop key d L (fuel + extra) t curr i c = InsertResult.returned code t' := by
  intro fuel
  induction fuel with
  | zero =>
    intro t curr i c code t' extra h
    simp [insertLoop] at h
  | succ fuel ih =>
    intro t curr i c code t' extra h
    have e : fuel + 1 + extra = (fuel + extra) + 1 := by omega
    rw [e, insertLoop_succ]
    rw [insertLoop_succ] at h
    cases hs : insertIter key d L t curr i c with
    | exit r =>
      rw [hs] at h
      exact h
    | next t1 curr1 i1 c1 =>
      rw [hs] at h
      exact ih _ _ _ _ _ _ _ h

/-- The insert loop returns within `nodeListSize + 2` passes. -/
theorem insertLoop_terminates (key : CString) (d : Option Nat) (L : Int) :
    ∀ (fuel : Nat) (t : TRIE) (curr : Loc) (i : Nat) (c : Int),
      Inv t → LocOK t curr → t.nodeListSize + 2 ≤ fuel + curr.rank →
      ∃ code t', insertLoop key d L fuel t curr i c = InsertResult.returned code t' := by
  intro fuel
  induction fuel with
  | zero =>
    intro t curr i c hI hL hf
    exfalso
    have := hI.cap
    cases curr with
    | root => simp [Loc.rank] at hf
    | rel n k =>
      have hn : Allocated t n := hL
      simp only [Loc.rank] at hf
      rcases hn with h | ⟨_, h⟩ <;> omega
  | succ fuel ih =>
    intro t curr i c hI hL hf
    rw [insertLoop_succ]
    rcases insertIter_cases key d L hI hL i c with
      ⟨p, hl, hp, e⟩ | ⟨_, _, e⟩ | ⟨n, k, _, hn, hnull, hlt, _, e⟩ |
      ⟨n, k, rfl, hn, hnull, hlt, _, e⟩
    · have hrank : ∀ k, t.nodeListSize + 2 ≤ fuel + (Loc.rel p k).rank := by
        intro k
        cases curr with
        | root => simp only [Loc.rank] at hf ⊢; omega
        | rel n k' =>
          have := (hI.link n k' p hL hl).1
          simp only [Loc.rank] at hf ⊢
          omega
      rw [e]
      split_ifs
      · exact ih _ (Loc.rel p _) _ _ hI hp (hrank _)
      · exact ih _ (Loc.rel p _) _ _ hI hp (hrank _)
      · exact ih _ (Loc.rel p _) _ _ hI hp (hrank _)
    · rw [e]
      exact ⟨_, _, rfl⟩
    · rw [e]
      exact ⟨_, _, rfl⟩
    · rw [e]
      apply ih _ _ _ _ (hI.alloc hn hnull hlt c) (allocNode_locOK t hI n k c _)
      have : n ≤ t.nodeListIndex := by
        rcases hn with h | ⟨_, h⟩ <;> omega
      simp only [Loc.rank, allocNode_size] at hf ⊢
      omega

theorem Trie_Insert_terminates {t : TRIE} (hI : Inv t) (key : CString) (d : Option Nat)
    (fuel : Nat) (hf : t.nodeListSize + 2 ≤ fuel) :
    ∃ code t', Trie_Insert fuel t key d = InsertResult.returned code t' :=
  insertLoop_terminates key d _ fuel t Loc.root 0 _ hI trivial (by simpa [Loc.rank] using hf)

/-! ## One pass of the lookup loop -/

theorem lookupLoop_none (t : TRIE) (key : CString) (N i : Nat) :
    lookupLoop t key (N + 1) none i = some none := rfl

theorem lookupLoop_hit (t : TRIE) (key : CString) (N p i : Nat)
    (h1 : key.get i = (t.nodeList p).splitchar) (h2 : key.get (i + 1) = 0) :
    lookupLoop t key (N + 1) (some p) i = some (t.nodeList p).data := by
  simp [lookupLoop, h1, h2]

theorem lookupLoop_eq (t : TRIE) (key : CString) (N p i : Nat)
    (h1 : key.get i = (t.nodeList p).splitchar) (h2 : key.get (i + 1) ≠ 0) :
    lookupLoop t key (N + 1) (some p) i =
      lookupLoop t key N ((t.nodeList p).relatives TRIE_NODE_EQ_CHILD) (i + 1) := by
  simp only [lookupLoop]
  rw [if_pos h1, if_neg h2]

theorem lookupLoop_ne (t : TRIE) (key : CString) (N p i : Nat)
    (h1 : key.get i ≠ (t.nodeList p).splitchar) :
    lookupLoop t key (N + 1) (some p) i =
      lookupLoop t key N
        ((t.nodeList p).relatives
          (if key.get i < (t.nodeList p).splitchar then TRIE_NODE_LOW_CHILD
           else TRIE_NODE_HIGH_CHILD)) i := by
  simp only [lookupLoop]
  rw [if_neg h1]

theorem Ext.load {t t' : TRIE} (hE : Ext t t') {curr : Loc} (hL : LocOK t curr) {p : Nat}
    (h : t.load curr = some p) : t'.load curr = some p := by
  cases curr with
  | root =>
    show t'.root = some p
    rw [hE.root]
    exact h
  | rel n k => exact hE.link n k p hL h

/-! ## A successful insert is found again -/

theorem insertLoop_lookup (key : CString) (d : Option Nat) :
    ∀ (fuel : Nat) (t : TRIE) (curr : Loc) (i : Nat) (t' : TRIE),
      Inv t → LocOK t curr →
      insertLoop key d (strlen key : Nat) fuel t curr i (key.get i) =
        InsertResult.returned 0 t' →
      ∃ N, lookupLoop t' key N (t'.load curr) i = some d := by
  intro fuel
  induction fuel with
  | zero =>
    intro t curr i t' _ _ h
    simp [insertLoop] at h
  | succ fuel ih =>
    intro t curr i t' hI hL h
    have hE := (insertLoop_inv key d _ _ t curr i _ 0 t' hI hL h).2
    rw [insertLoop_succ] at h
    rcases insertIter_cases key d (strlen key : Nat) hI hL i (key.get i) with
      ⟨p, hl, hp, e⟩ | ⟨_, _, e⟩ | ⟨n, k, rfl, hn, hnull, hlt, hend, e⟩ |
      ⟨n, k, rfl, hn, hnull, hlt, hend, e⟩
    · rw [e] at h
      rw [hE.load hL hl]
      have hc := hE.char p hp
      by_cases hm : key.get i = (t.nodeList p).splitchar
      · rw [if_pos hm] at h
        have hidx := insertLoop_zero_index key d _ fuel t (Loc.rel p _) (i + 1) _ t' hI hp h
        have hlt : i + 1 < strlen key := by
          push_cast at hidx
          omega
        have hnz := (get_of_lt_strlen key (i + 1) hlt).2
        obtain ⟨N, hN⟩ := ih t (Loc.rel p _) (i + 1) t' hI hp h
        refine ⟨N + 1, ?_⟩
        rw [lookupLoop_eq t' key N p i (by rw [hc]; exact hm) hnz]
        exact hN
      · rw [if_neg hm] at h
        obtain ⟨N, hN⟩ := ih t (Loc.rel p _) i t' hI hp h
        refine ⟨N + 1, ?_⟩
        rw [lookupLoop_ne t' key N p i (by rw [hc]; exact hm), hc]
        exact hN
    · rw [e] at h
      simp at h
    · rw [e] at h
      simp only [InsertResult.returned.injEq, true_and] at h
      subst h
      refine ⟨1, ?_⟩
      have hne := hn.ne_next hI
      have hl : ((allocNode t n k (key.get i)).setData (t.nodeListIndex + 1) d).load
          (Loc.rel n k) = some (t.nodeListIndex + 1) := by
        show (((allocNode t n k (key.get i)).setData (t.nodeListIndex + 1) d).nodeList
          n).relatives k = _
        rw [setData_relatives, allocNode_link_self t n k _ hne]
      rw [hl, lookupLoop_hit]
      · rw [setData_data_self]
      · rw [setData_splitchar, allocNode_new]
      · have : i + 1 = strlen key := by omega
        rw [this]
        exact get_strlen key
    · rw [e] at h
      have hI1 := hI.alloc hn hnull hlt (key.get i)
      have hL1 := allocNode_locOK t hI n k (key.get i) TRIE_NODE_EQ_CHILD
      have hE1 := (insertLoop_inv key d _ _ _ _ _ _ 0 t' hI1 hL1 h).2
      have hidx := insertLoop_zero_index key d _ fuel _ _ (i + 1) _ t' hI1 hL1 h
      have hlt2 : i + 1 < strlen key := by
        push_cast at hidx
        omega
      have hnz := (get_of_lt_strlen key (i + 1) hlt2).2
      obtain ⟨N, hN⟩ := ih _ _ (i + 1) t' hI1 hL1 h
      refine ⟨N + 1, ?_⟩
      have hne := hn.ne_next hI
      have hl : t'.load (Loc.rel n k) = some (t.nodeListIndex + 1) :=
        hE1.link n k _ (Allocated.mono hn (by rw [allocNode_index]; omega))
          (allocNode_link_self t n k _ hne)
      have hc : (t'.nodeList (t.nodeListIndex + 1)).splitchar = key.get i := by
        rw [hE1.char _ hL1, allocNode_new]
      rw [hl, lookupLoop_eq t' key N _ i hc.symm hnz]
      exact hN

/-! ## Walks: the positions both loops pass through -/

theorem Walk.locOK {t : TRIE} (hI : Inv t) {key : CString} {curr : Loc} {i : Nat}
    (h : Walk t key curr i) : LocOK t curr := by
  induction h with
  | start => trivial
  | step _ hl _ ih => exact hI.load_allocated ih hl

theorem Inv.load_inj {t : TRIE} (hI : Inv t) {c1 c2 : Loc} (h1 : LocOK t c1)
    (h2 : LocOK t c2) {p : Nat} (e1 : t.load c1 = some p) (e2 : t.load c2 = some p) :
    c1 = c2 := by
  cases c1 with
  | root =>
    cases c2 with
    | root => rfl
    | rel n k =>
      exfalso
      have hr : t.root = some p := e1
      rw [hI.root] at hr
      have hp : p = 0 := (Option.some.inj hr).symm
      have := (hI.link n k p h2 e2).2.1
      omega
  | rel n k =>
    cases c2 with
    | root =>
      exfalso
      have hr : t.root = some p := e2
      rw [hI.root] at hr
      have hp : p = 0 := (Option.some.inj hr).symm
      have := (hI.link n k p h1 e1).2.1
      omega
    | rel n' k' =>
      obtain ⟨a, b⟩ := hI.inj n n' k k' p h1 h2 e1 e2
      rw [a, b]

theorem eq_child_ne_branch (b : Prop) [Decidable b] :
    TRIE_NODE_EQ_CHILD ≠ (if b then TRIE_NODE_LOW_CHILD else TRIE_NODE_HIGH_CHILD) := by
  split_ifs <;> decide

/-- The trie is a tree: two walks that end at the same place have consumed the
same number of key characters, and the same characters. -/
theorem Walk.unique {t : TRIE} (hI : Inv t) {k1 k2 : CString} {curr : Loc} {i1 : Nat}
    (h1 : Walk t k1 curr i1) :
    ∀ {i2 : Nat}, Walk t k2 curr i2 → i1 = i2 ∧ ∀ j, j < i1 → k1.get j = k2.get j := by
  induction h1 with
  | start =>
    intro i2 h2
    cases h2
    exact ⟨rfl, fun j hj => absurd hj (Nat.not_lt_zero j)⟩
  | @step c1 a p k a' w1 hl1 hc1 ih =>
    intro i2 h2
    cases h2 with
    | @step c2 b _ _ _ w2 hl2 hc2 =>
      have hcc : c1 = c2 := hI.load_inj (w1.locOK hI) (w2.locOK hI) hl1 hl2
      subst hcc
      obtain ⟨hab, hpre⟩ := ih w2
      subst hab
      rcases hc1 with ⟨x1, x2, x3⟩ | ⟨x1, x2, x3⟩
      · rcases hc2 with ⟨y1, _, y3⟩ | ⟨_, y2, _⟩
        · refine ⟨by rw [x3, y3], fun j hj => ?_⟩
          by_cases hja : j < a
          · exact hpre j hja
          · have : j = a := by omega
            rw [this, x1, y1]
        · exact absurd (x2.symm.trans y2) (eq_child_ne_branch _)
      · rcases hc2 with ⟨_, y2, _⟩ | ⟨_, _, y3⟩
        · exact absurd (y2.symm.trans x2) (eq_child_ne_branch _)
        · refine ⟨by rw [x3, y3], fun j hj => ?_⟩
          exact hpre j (by omega)

/-! ## What a call of `Trie_Insert` adds to the trie -/

theorem SubAnswers.null (t' : TRIE) (key : CString) (L : Int) (code : Int) (i : Nat) :
    SubAnswers t' key L code none i := by
  intro k1 N i1 r h
  cases N with
  | zero => simp [lookupLoop] at h
  | succ N =>
    rw [lookupLoop_none] at h
    exact Or.inl (Option.some.inj h).symm

/-- A lookup at a node without low and high children, in terms of the node's
payload and of what sits below its equal child. -/
theorem SubAnswers.node {t' : TRIE} {key : CString} {L : Int} {code : Int} {q i : Nat}
    (hc : (t'.nodeList q).splitchar = key.get i)
    (hlow : (t'.nodeList q).relatives TRIE_NODE_LOW_CHILD = none)
    (hhigh : (t'.nodeList q).relatives TRIE_NODE_HIGH_CHILD = none)
    (hdata : (t'.nodeList q).data = none ∨ (code = 0 ∧ ((i + 1 : Nat) : Int) = L))
    (hsub : SubAnswers t' key L code ((t'.nodeList q).relatives TRIE_NODE_EQ_CHILD) (i + 1)) :
    SubAnswers t' key L code (some q) i := by
  intro k1 N i1 r h
  cases N with
  | zero => simp [lookupLoop] at h
  | succ N =>
    by_cases hm : k1.get i1 = (t'.nodeList q).splitchar
    · by_cases hz : k1.get (i1 + 1) = 0
      · rw [lookupLoop_hit t' k1 N q i1 hm hz] at h
        rcases hdata with hd | ⟨h0, hlen⟩
        · left
          rw [← Option.some.inj h, hd]
        · right
          refine ⟨h0, 1, hlen, fun x hx => ?_, hz⟩
          have : x = 0 := by omega
          subst this
          rw [Nat.add_zero, Nat.add_zero, hm, hc]
      · rw [lookupLoop_eq t' k1 N q i1 hm hz] at h
        rcases hsub k1 N (i1 + 1) r h with hr | ⟨h0, m, hlen, hall, hend⟩
        · exact Or.inl hr
        · right
          refine ⟨h0, m + 1, by rw [← hlen]; push_cast; ring, fun x hx => ?_, ?_⟩
          · cases x with
            | zero => rw [Nat.add_zero, Nat.add_zero, hm, hc]
            | succ y =>
              have e1 : i1 + (y + 1) = i1 + 1 + y := by omega
              have e2 : i + (y + 1) = i + 1 + y := by omega
              rw [e1, e2]
              exact hall y (by omega)
          · have e1 : i1 + (m + 1) = i1 + 1 + m := by omega
            rw [e1]
            exact hend
    · rw [lookupLoop_ne t' k1 N q i1 hm] at h
      have hnull : (t'.nodeList q).relatives
          (if k1.get i1 < (t'.nodeList q).splitchar then TRIE_NODE_LOW_CHILD
           else TRIE_NODE_HIGH_CHILD) = none := by
        split_ifs
        · exact hlow
        · exact hhigh
      rw [hnull] at h
      exact SubAnswers.null t' key L code i k1 N i1 r h

theorem low_ne_eq : ¬ (TRIE_NODE_LOW_CHILD = TRIE_NODE_EQ_CHILD) := by decide

theorem high_ne_eq : ¬ (TRIE_NODE_HIGH_CHILD = TRIE_NODE_EQ_CHILD) := by decide

/-- The loop started at a `NULL` link: it changes no other link of the trie it
started with, and what it hangs below that link answers at most the inserted
key. -/
theorem insertLoop_chain (key : CString) (d : Option Nat) (L : Int) :
    ∀ (fuel : Nat) (t : TRIE) (n : Nat) (k : Fin 3) (i : Nat) (code : Int) (t' : TRIE),
      Inv t → Allocated t n → (t.nodeList n).relatives k = none →
      insertLoop key d L fuel t (Loc.rel n k) i (key.get i) =
        InsertResult.returned code t' →
      SameLinksBut t t' n k ∧ SubAnswers t' key L code ((t'.nodeList n).relatives k) i := by
  intro fuel
  induction fuel with
  | zero =>
    intro t n k i code t' _ _ _ h
    simp [insertLoop] at h
  | succ fuel ih =>
    intro t n k i code t' hI hn hnull h
    rw [insertLoop_succ] at h
    have hL : LocOK t (Loc.rel n k) := hn
    rcases insertIter_cases key d L hI hL i (key.get i) with
      ⟨p, hl, _, _⟩ | ⟨_, _, e⟩ | ⟨n', k', hloc, _, _, hlt, hend, e⟩ |
      ⟨n', k', hloc, _, _, hlt, hend, e⟩
    · exfalso
      have : (t.nodeList n).relatives k = some p := hl
      rw [hnull] at this
      exact absurd this (by simp)
    · rw [e] at h
      simp only [InsertResult.returned.injEq] at h
      obtain ⟨_, rfl⟩ := h
      refine ⟨fun _ _ _ _ => rfl, ?_⟩
      rw [hnull]
      exact SubAnswers.null _ _ _ _ _
    · obtain ⟨rfl, rfl⟩ := Loc.rel.inj hloc
      rw [e] at h
      simp only [InsertResult.returned.injEq] at h
      obtain ⟨rfl, rfl⟩ := h
      have hne := hn.ne_next hI
      refine ⟨fun m k' hm hmk => ?_, ?_⟩
      · rw [setData_relatives, allocNode_link_other t n k _ m k' (hm.ne_next hI) hmk]
      · rw [setData_relatives, allocNode_link_self t n k _ hne]
        apply SubAnswers.node
        · rw [setData_splitchar, allocNode_new]
        · rw [setData_relatives, allocNode_new]
        · rw [setData_relatives, allocNode_new]
        · exact Or.inr ⟨rfl, by push_cast; omega⟩
        · rw [setData_relatives, allocNode_new]
          exact SubAnswers.null _ _ _ _ _
    · obtain ⟨rfl, rfl⟩ := Loc.rel.inj hloc
      rw [e] at h
      have hne := hn.ne_next hI
      have hI1 := hI.alloc hn hnull hlt (key.get i)
      have hL1 := allocNode_locOK t hI n k (key.get i) TRIE_NODE_EQ_CHILD
      have hnew := allocNode_new t n k (key.get i)
      have hE1 := (insertLoop_inv key d _ _ _ _ _ _ code t' hI1 hL1 h).2
      obtain ⟨hsame, hsub⟩ := ih _ (t.nodeListIndex + 1) TRIE_NODE_EQ_CHILD (i + 1) code t'
        hI1 hL1 (by rw [hnew]) h
      have hidx : (allocNode t n k (key.get i)).nodeListIndex = t.nodeListIndex + 1 := rfl
      have hn1 : Allocated (allocNode t n k (key.get i)) n := hn.mono (by rw [hidx]; omega)
      refine ⟨fun m k' hm hmk => ?_, ?_⟩
      · have hm1 : Allocated (allocNode t n k (key.get i)) m := hm.mono (by rw [hidx]; omega)
        rw [hsame m k' hm1 (fun hc => (hm.ne_next hI) hc.1),
          allocNode_link_other t n k _ m k' (hm.ne_next hI) hmk]
      · rw [hsame n k hn1 (fun hc => hne hc.1), allocNode_link_self t n k _ hne]
        apply SubAnswers.node
        · rw [hE1.char _ hL1, hnew]
        · rw [hsame _ _ hL1 (fun hc => low_ne_eq hc.2), hnew]
        · rw [hsame _ _ hL1 (fun hc => high_ne_eq hc.2), hnew]
        · left
          rw [hE1.data _ hL1, hnew]
        · exact hsub

/-- What a whole run of the loop from a walk position does: it steps down to one
`NULL` link of the trie and hangs a chain of fresh nodes below it. -/
theorem insertLoop_shape (key : CString) (d : Option Nat) (L : Int) :
    ∀ (fuel : Nat) (t : TRIE) (curr : Loc) (i : Nat) (code : Int) (t' : TRIE),
      Inv t → Walk t key curr i →
      insertLoop key d L fuel t curr i (key.get i) =
        InsertResult.returned code t' →
      ∃ n k j, Walk t key (Loc.rel n k) j ∧ Allocated t n ∧
        (t.nodeList n).relatives k = none ∧ SameLinksBut t t' n k ∧
        SubAnswers t' key L code ((t'.nodeList n).relatives k) j := by
  intro fuel
  induction fuel with
  | zero =>
    intro t curr i code t' _ _ h
    simp [insertLoop] at h
  | succ fuel ih =>
    intro t curr i code t' hI hW h
    have hL := hW.locOK hI
    cases hload : t.load curr with
    | none =>
      cases curr with
      | root =>
        exfalso
        have : t.root = none := hload
        rw [hI.root] at this
        exact absurd this (by simp)
      | rel n k =>
        obtain ⟨h1, h2⟩ := insertLoop_chain key d L _ t n k i code t' hI hL hload h
        exact ⟨n, k, i, hW, hL, hload, h1, h2⟩
    | some p =>
      rw [insertLoop_succ] at h
      have hp := hI.load_allocated hL hload
      have e : insertIter key d L t curr i (key.get i) =
          compareStep key t curr i (key.get i) := by
        simp only [insertIter, hload]
      rw [e, compareStep_some hload] at h
      by_cases hm : key.get i = (t.nodeList p).splitchar
      · rw [if_pos hm] at h
        exact ih t _ (i + 1) code t' hI (Walk.step hW hload (Or.inl ⟨hm, rfl, rfl⟩)) h
      · rw [if_neg hm] at h
        exact ih t _ i code t' hI (Walk.step hW hload (Or.inr ⟨hm, rfl, rfl⟩)) h

/-- Lookups in the trie after the call, compared with lookups before it. -/
theorem lookupLoop_frame {t t' : TRIE} (hI : Inv t) (hE : Ext t t') {key : CString}
    {L : Int} {code : Int} {n : Nat} {k : Fin 3} {j : Nat}
    (hW : Walk t key (Loc.rel n k) j)
    (hnull : (t.nodeList n).relatives k = none) (hsame : SameLinksBut t t' n k)
    (hsub : SubAnswers t' key L code ((t'.nodeList n).relatives k) j) (k1 : CString)
    (hk : ¬ (code = 0 ∧ IsCut k1 key L)) :
    ∀ (N : Nat) (curr : Loc) (i1 : Nat) (r : Option Nat), Walk t k1 curr i1 →
      lookupLoop t' k1 N (t'.load curr) i1 = some r →
      lookupLoop t k1 N (t.load curr) i1 = some r := by
  intro N
  induction N with
  | zero =>
    intro curr i1 r _ h
    simp [lookupLoop] at h
  | succ N ih =>
    intro curr i1 r hW1 h
    by_cases hc : curr = Loc.rel n k
    · subst hc
      have hl : t.load (Loc.rel n k) = none := hnull
      rw [hl, lookupLoop_none]
      rcases hsub k1 (N + 1) i1 r h with hr | ⟨h0, m, hlen, hall, hend⟩
      · rw [hr]
      · exfalso
        apply hk
        refine ⟨h0, ?_⟩
        obtain ⟨hij, hpre⟩ := Walk.unique hI hW1 hW
        subst hij
        refine ⟨i1 + m, hlen, fun x hx => ?_, hend⟩
        by_cases hxi : x < i1
        · exact hpre x hxi
        · have e : x = i1 + (x - i1) := by omega
          rw [e]
          exact hall (x - i1) (by omega)
    · have hL := hW1.locOK hI
      have hl : t'.load curr = t.load curr := by
        cases curr with
        | root => exact hE.root
        | rel m k' =>
          apply hsame m k' hL
          intro hmk
          apply hc
          rw [hmk.1, hmk.2]
      rw [hl] at h
      cases hload : t.load curr with
      | none =>
        rw [hload] at h
        exact h
      | some p =>
        rw [hload] at h
        have hp := hI.load_allocated hL hload
        have hch := hE.char p hp
        have hd := hE.data p hp
        by_cases hm : k1.get i1 = (t.nodeList p).splitchar
        · by_cases hz : k1.get (i1 + 1) = 0
          · rw [lookupLoop_hit t' k1 N p i1 (by rw [hch]; exact hm) hz, hd] at h
            rw [lookupLoop_hit t k1 N p i1 hm hz]
            exact h
          · rw [lookupLoop_eq t' k1 N p i1 (by rw [hch]; exact hm) hz] at h
            rw [lookupLoop_eq t k1 N p i1 hm hz]
            exact ih (Loc.rel p TRIE_NODE_EQ_CHILD) (i1 + 1) r
              (Walk.step hW1 hload (Or.inl ⟨hm, rfl, rfl⟩)) h
        · rw [lookupLoop_ne t' k1 N p i1 (by rw [hch]; exact hm), hch] at h
          rw [lookupLoop_ne t k1 N p i1 hm]
          exact ih (Loc.rel p _) i1 r (Walk.step hW1 hload (Or.inr ⟨hm, rfl, rfl⟩)) h

theorem int_of_size_t_of_lt {n : Nat} (h : n < 2 ^ 31) : int_of_size_t n = (n : Int) := by
  unfold int_of_size_t
  have h1 : (n + 2 ^ 31) % 2 ^ 32 = n + 2 ^ 31 := Nat.mod_eq_of_lt (by omega)
  rw [h1]
  push_cast
  ring

/-- A call of `Trie_Insert` with a key of fewer than `2^31` characters runs the
loop with the length of the key. -/
theorem Trie_Insert_short {key : CString} (hlen : strlen key < 2 ^ 31) (fuel : Nat)
    (t : TRIE) (d : Option Nat) :
    Trie_Insert fuel t key d =
      insertLoop key d (strlen key : Nat) fuel t Loc.root 0 (key.get 0) := by
  unfold Trie_Insert
  rw [int_of_size_t_of_lt hlen]

theorem IsCut.text_eq {k1 key : CString} (h : IsCut k1 key (strlen key : Nat)) :
    k1.text = key.text := by
  obtain ⟨m, hm, hall, hend⟩ := h
  have e : m = strlen key := by exact_mod_cast hm
  subst e
  exact text_eq_of_get k1 key hall hend

/-- Frame property of `Trie_Insert`, for keys of any length: a returning call
changes the result of no lookup, except that of the inserted key, cut off at
the length the call works with, when the call returned `0`. -/
theorem Trie_Insert_frame_cut {t : TRIE} (hI : Inv t) {fuel : Nat} {key : CString}
    {d : Option Nat} {code : Int} {t' : TRIE}
    (h : Trie_Insert fuel t key d = InsertResult.returned code t') (k1 : CString)
    (hk : ¬ (code = 0 ∧ IsCut k1 key (int_of_size_t (strlen key)))) (N : Nat)
    (hN : t'.nodeListIndex + 2 ≤ N) :
    Trie_Lookup N t' k1 = Trie_Lookup N t k1 ∧ ∃ r, Trie_Lookup N t k1 = some r := by
  obtain ⟨hI', hE⟩ := insertLoop_inv key d _ fuel t Loc.root 0 _ code t' hI trivial h
  obtain ⟨n, k, j, hW, _, hnull, hsame, hsub⟩ :=
    insertLoop_shape key d _ fuel t Loc.root 0 code t' hI Walk.start h
  obtain ⟨r, hr⟩ := Trie_Lookup_terminates hI' k1 N hN
  have h2 := lookupLoop_frame hI hE hW hnull hsame hsub k1 hk N Loc.root 0 r Walk.start hr
  have h3 : Trie_Lookup N t k1 = some r := h2
  exact ⟨by rw [hr, h3], r, h3⟩

/-- Frame property of `Trie_Insert`, for a key of fewer than `2^31` characters:
a returning call changes the result of no lookup, except that of the inserted
key when the call returned `0`. -/
theorem Trie_Insert_frame {t : TRIE} (hI : Inv t) {fuel : Nat} {key : CString}
    (hlen : strlen key < 2 ^ 31)
    {d : Option Nat} {code : Int} {t' : TRIE}
    (h : Trie_Insert fuel t key d = InsertResult.returned code t') (k1 : CString)
    (hk : ¬ (code = 0 ∧ k1.text = key.text)) (N : Nat) (hN : t'.nodeListIndex + 2 ≤ N) :
    Trie_Lookup N t' k1 = Trie_Lookup N t k1 ∧ ∃ r, Trie_Lookup N t k1 = some r := by
  apply Trie_Insert_frame_cut hI h k1 ?_ N hN
  rintro ⟨h0, hcut⟩
  rw [int_of_size_t_of_lt hlen] at hcut
  exact hk ⟨h0, hcut.text_eq⟩

/-! ## Further facts about a call -/

theorem returned_of_code {r : InsertResult} {c : Int} (h : r.code = some c) (t : TRIE) :
    r = InsertResult.returned c (r.trieOr t) := by
  cases r with
  | outOfFuel => simp [InsertResult.code] at h
  | nullDeref => simp [InsertResult.code] at h
  | returned c' t' =>
    simp only [InsertResult.code, Option.some.injEq] at h
    subst h
    rfl

/-- Once the cursor has reached the arena size the loop changes nothing and
returns `-1`. -/
theorem insertLoop_full (key : CString) (d : Option Nat) (L : Int) :
    ∀ (fuel : Nat) (t : TRIE) (curr : Loc) (i : Nat) (c : Int) (code : Int) (t' : TRIE),
      Inv t → LocOK t curr → t.nodeListSize ≤ t.nodeListIndex →
      insertLoop key d L fuel t curr i c = InsertResult.returned code t' →
      code = -1 ∧ t' = t := by
  intro fuel
  induction fuel with
  | zero =>
    intro t curr i c code t' _ _ _ h
    simp [insertLoop] at h
  | succ fuel ih =>
    intro t curr i c code t' hI hL hfull h
    rw [insertLoop_succ] at h
    rcases insertIter_cases key d L hI hL i c with
      ⟨p, _, hp, e⟩ | ⟨_, _, e⟩ | ⟨n, k, _, _, _, hlt, _, _⟩ |
      ⟨n, k, _, _, _, hlt, _, _⟩
    · rw [e] at h
      split_ifs at h
      · exact ih _ (Loc.rel p _) _ _ _ _ hI hp hfull h
      · exact ih _ (Loc.rel p _) _ _ _ _ hI hp hfull h
      · exact ih _ (Loc.rel p _) _ _ _ _ hI hp hfull h
    · rw [e] at h
      simp only [InsertResult.returned.injEq] at h
      exact ⟨h.1.symm, h.2.symm⟩
    · omega
    · omega

/-- The nodes a failing call has allocated carry no payload. -/
theorem insertLoop_fail_data (key : CString) (d : Option Nat) (L : Int) :
    ∀ (fuel : Nat) (t : TRIE) (curr : Loc) (i : Nat) (c : Int) (t' : TRIE),
      Inv t → LocOK t curr →
      insertLoop key d L fuel t curr i c = InsertResult.returned (-1) t' →
      ∀ m, t.nodeListIndex < m → m ≤ t'.nodeListIndex → (t'.nodeList m).data = none := by
  intro fuel
  induction fuel with
  | zero =>
    intro t curr i c t' _ _ h
    simp [insertLoop] at h
  | succ fuel ih =>
    intro t curr i c t' hI hL h
    rw [insertLoop_succ] at h
    rcases insertIter_cases key d L hI hL i c with
      ⟨p, _, hp, e⟩ | ⟨_, _, e⟩ | ⟨n, k, _, _, _, _, _, e⟩ |
      ⟨n, k, _, hn, hnull, hlt, _, e⟩
    · rw [e] at h
      split_ifs at h
      · exact ih _ (Loc.rel p _) _ _ _ hI hp h
      · exact ih _ (Loc.rel p _) _ _ _ hI hp h
      · exact ih _ (Loc.rel p _) _ _ _ hI hp h
    · rw [e] at h
      simp only [InsertResult.returned.injEq, true_and] at h
      subst h
      intro m h1 h2
      omega
    · rw [e] at h
      simp at h
    · rw [e] at h
      have hI1 := hI.alloc hn hnull hlt c
      have hL1 := allocNode_locOK t hI n k c TRIE_NODE_EQ_CHILD
      have hE1 := (insertLoop_inv key d L _ _ _ _ _ _ t' hI1 hL1 h).2
      intro m h1 h2
      by_cases hm : m = t.nodeListIndex + 1
      · subst hm
        rw [hE1.data _ hL1, allocNode_new]
      · exact ih _ _ _ _ _ hI1 hL1 h m (by rw [allocNode_index]; omega) h2

/-! ## The self-test tries are reachable -/

theorem test0_reachable : Reachable test0 :=
  Reachable.new true (some garbage) 100 test0 rfl

theorem test1_reachable : Reachable test1 :=
  Reachable.insert test0 test1 200 keyFoo (some 2142) 0 test0_reachable
    (returned_of_code (by decide) test0)

theorem test2_reachable : Reachable test2 :=
  Reachable.insert test1 test2 200 keyEdgar (some 82) 0 test1_reachable
    (returned_of_code (by decide) test1)

/-! ## Round trip and prefixes -/

/-- C1 (round trip), for keys of fewer than `2^31` characters.  In a trie built
by `Trie_new` and any sequence of `Trie_Insert` calls, when
`Trie_Insert( key, data )` returns `0` for such a key, the call
`Trie_Lookup( key )` made on the resulting trie returns `data`, and the lookup
loop needs at most `nodeListIndex + 2` passes for it.  A call that returns `0`
has a non-empty key, so the statement needs no assumption on that. -/
theorem roundtrip_insert_lookup (t : TRIE) (hR : Reachable t) (key : CString)
    (hlen : strlen key < 2 ^ 31) (data : Option Nat) (fuel : Nat) (t' : TRIE)
    (hins : Trie_Insert fuel t key data = InsertResult.returned 0 t') (N : Nat)
    (hN : t'.nodeListIndex + 2 ≤ N) : Trie_Lookup N t' key = some data := by
  have hI := hR.inv
  rw [Trie_Insert_short hlen] at hins
  obtain ⟨hI', _⟩ := insertLoop_inv key data _ fuel t Loc.root 0 _ 0 t' hI trivial hins
  obtain ⟨M, hM⟩ := insertLoop_lookup key data fuel t Loc.root 0 t' hI trivial hins
  obtain ⟨r, hr⟩ := Trie_Lookup_terminates hI' key N hN
  have h1 := lookupLoop_mono t' key N t'.root 0 r M hr
  have h2 := lookupLoop_mono t' key M t'.root 0 data N hM
  rw [Nat.add_comm] at h2
  rw [h1] at h2
  rw [hr, h2]

theorem roundtrip_insert_lookup_witness :
    Reachable test0 ∧ strlen keyFoo < 2 ^ 31 ∧ 0 < strlen keyFoo ∧
      Trie_Insert 200 test0 keyFoo (some 2142) = InsertResult.returned 0 test1 ∧
      test1.nodeListIndex + 2 ≤ 6 ∧ Trie_Lookup 6 test1 keyFoo = some (some 2142) :=
  ⟨test0_reachable, by decide, by decide, returned_of_code (by decide) test0, by decide,
    roundtrip_insert_lookup test0 test0_reachable keyFoo (by decide) (some 2142) 200 test1
      (returned_of_code (by decide) test0) 6 (by decide)⟩

/-- C4 (prefix distinction), for inserted keys of fewer than `2^31` characters.
In a reachable trie, for two different non-empty keys of which one is a prefix
of the other, a `Trie_Lookup( k' )` that returned `NULL` before a
`Trie_Insert( k, data )` call that returned `0` still returns `NULL` after it.
And in the self-test trie (capacity `100`; `"foo"`, `"edgar"`, `"for"` inserted,
each call returning `0`), `Trie_Lookup( "fo" )` and `Trie_Lookup( "f" )` return
`NULL`. -/
theorem prefix_keys_stay_absent :
    (∀ (t : TRIE), Reachable t → ∀ (k k' : CString) (data : Option Nat) (fuel : Nat)
        (t' : TRIE) (N : Nat), strlen k < 2 ^ 31 →
        (0 < strlen k ∧ 0 < strlen k' ∧ (k'.text <+: k.text ∨ k.text <+: k'.text) ∧
          k'.text ≠ k.text) →
        Trie_Insert fuel t k data = InsertResult.returned 0 t' →
        t'.nodeListIndex + 2 ≤ N →
        Trie_Lookup N t k' = some none → Trie_Lookup N t' k' = some none) ∧
      ((Trie_Insert 200 test0 keyFoo (some 2142)).code = some 0 ∧
        (Trie_Insert 200 test1 keyEdgar (some 82)).code = some 0 ∧
        (Trie_Insert 200 test2 keyFor (some 84)).code = some 0 ∧
        Trie_Lookup 200 test3 keyFo = some none ∧ Trie_Lookup 200 test3 keyF = some none) := by
  refine ⟨?_, by decide⟩
  intro t hR k k' data fuel t' N hlen hk hins hN habs
  rw [(Trie_Insert_frame hR.inv hlen hins k' (fun h => hk.2.2.2 h.2) N hN).1]
  exact habs

theorem prefix_keys_stay_absent_witness :
    Reachable test0 ∧ strlen keyFoo < 2 ^ 31 ∧
      (0 < strlen keyFoo ∧ 0 < strlen keyFo ∧
        (keyFo.text <+: keyFoo.text ∨ keyFoo.text <+: keyFo.text) ∧
        keyFo.text ≠ keyFoo.text) ∧
      Trie_Insert 200 test0 keyFoo (some 2142) = InsertResult.returned 0 test1 ∧
      test1.nodeListIndex + 2 ≤ 6 ∧ Trie_Lookup 6 test0 keyFo = some none ∧
      Trie_Lookup 6 test1 keyFo = some none :=
  ⟨test0_reachable, by decide, by decide, returned_of_code (by decide) test0, by decide,
    by decide,
    prefix_keys_stay_absent.1 test0 test0_reachable keyFoo keyFo (some 2142) 200 test1 6
      (by decide) (by decide) (returned_of_code (by decide) test0) (by decide) (by decide)⟩

/-! ## Inserting a key a second time -/

set_option maxRecDepth 100000

/-- C2 (overwrite), evaluated on the self-test trie of capacity `100`: the first
`Trie_Insert( "foo", ... )` returns `0` and leaves the cursor at `4`; a second
`Trie_Insert( "foo", ... )` with another payload returns `-1`, leaves the cursor
at `100`, and `Trie_Lookup( "foo" )` afterwards still returns the first payload. -/
theorem second_insert_of_foo_fails :
    (Trie_Insert 200 test0 keyFoo (some 2142)).code = some 0 ∧ test1.nodeListIndex = 4 ∧
      (Trie_Insert 200 test1 keyFoo (some 7)).code = some (-1) ∧
      test1again.nodeListIndex = 100 ∧
      Trie_Lookup 200 test1again keyFoo = some (some 2142) := by
  decide

/-- C10 (allocation bound per call), evaluated on a trie of capacity `8`: the
key `"a"` has length `1`; the first `Trie_Insert( "a", ... )` returns `0` with
the cursor at `2`, the second one returns `-1` with the cursor at `8`, six
allocations later. -/
theorem second_insert_allocates_six_nodes :
    strlen keyA = 1 ∧ (Trie_Insert 20 (newTrie garbage 8) keyA (some 1)).code = some 0 ∧
      eight1.nodeListIndex = 2 ∧ (Trie_Insert 20 eight1 keyA (some 2)).code = some (-1) ∧
      eight2.nodeListIndex = 8 := by
  decide

/-! ## Capacity and the block -/

@[simp] theorem allocNode_wroteOutside (t : TRIE) (n : Nat) (k : Fin 3) (c : Int) :
    (allocNode t n k c).wroteOutside =
      ((t.wroteOutside || decide (t.nodeListSize ≤ n)) ||
        decide (t.nodeListSize ≤ t.nodeListIndex + 1)) := rfl

@[simp] theorem setData_wroteOutside (t : TRIE) (p : Nat) (d : Option Nat) :
    (t.setData p d).wroteOutside = (t.wroteOutside || decide (t.nodeListSize ≤ p)) := rfl

/-- Once the cursor has reached the size of a block of two slots or more, a
write outside the block has happened: the slot the cursor names is outside. -/
theorem insertLoop_overflow (key : CString) (d : Option Nat) (L : Int) :
    ∀ (fuel : Nat) (t : TRIE) (curr : Loc) (i : Nat) (c : Int) (code : Int) (t' : TRIE),
      Inv t → LocOK t curr →
      (t.nodeListIndex = t.nodeListSize → 2 ≤ t.nodeListSize → t.wroteOutside = true) →
      insertLoop key d L fuel t curr i c = InsertResult.returned code t' →
      (t'.nodeListIndex = t'.nodeListSize → 2 ≤ t'.nodeListSize → t'.wroteOutside = true) := by
  intro fuel
  induction fuel with
  | zero =>
    intro t curr i c code t' _ _ _ h
    simp [insertLoop] at h
  | succ fuel ih =>
    intro t curr i c code t' hI hL hJ h
    rw [insertLoop_succ] at h
    rcases insertIter_cases key d L hI hL i c with
      ⟨p, _, hp, e⟩ | ⟨_, _, e⟩ | ⟨n, k, _, hn, hnull, hlt, _, e⟩ |
      ⟨n, k, _, hn, hnull, hlt, _, e⟩
    · rw [e] at h
      split_ifs at h
      · exact ih _ (Loc.rel p _) _ _ _ _ hI hp hJ h
      · exact ih _ (Loc.rel p _) _ _ _ _ hI hp hJ h
      · exact ih _ (Loc.rel p _) _ _ _ _ hI hp hJ h
    · rw [e] at h
      simp only [InsertResult.returned.injEq] at h
      obtain ⟨_, rfl⟩ := h
      exact hJ
    · rw [e] at h
      simp only [InsertResult.returned.injEq] at h
      obtain ⟨_, rfl⟩ := h
      intro h1 _
      simp only [setData_index, allocNode_index, setData_size, allocNode_size] at h1
      simp only [setData_wroteOutside, allocNode_wroteOutside, allocNode_size,
        Bool.or_eq_true, decide_eq_true_eq]
      right
      omega
    · rw [e] at h
      apply ih _ _ _ _ _ _ (hI.alloc hn hnull hlt c) (allocNode_locOK t hI n k c _) ?_ h
      intro h1 _
      simp only [allocNode_index, allocNode_size] at h1
      simp only [allocNode_wroteOutside, Bool.or_eq_true, decide_eq_true_eq]
      right
      omega

/-- As long as the cursor stays below the size, a call writes inside the block. -/
theorem insertLoop_inside (key : CString) (d : Option Nat) (L : Int) :
    ∀ (fuel : Nat) (t : TRIE) (curr : Loc) (i : Nat) (c : Int) (code : Int) (t' : TRIE),
      Inv t → LocOK t curr → t.wroteOutside = false →
      insertLoop key d L fuel t curr i c = InsertResult.returned code t' →
      t'.nodeListIndex < t'.nodeListSize → t'.wroteOutside = false := by
  intro fuel
  induction fuel with
  | zero =>
    intro t curr i c code t' _ _ _ h
    simp [insertLoop] at h
  | succ fuel ih =>
    intro t curr i c code t' hI hL hJ h
    rw [insertLoop_succ] at h
    rcases insertIter_cases key d L hI hL i c with
      ⟨p, _, hp, e⟩ | ⟨_, _, e⟩ | ⟨n, k, _, hn, hnull, hlt, _, e⟩ |
      ⟨n, k, _, hn, hnull, hlt, _, e⟩
    · rw [e] at h
      split_ifs at h
      · exact ih _ (Loc.rel p _) _ _ _ _ hI hp hJ h
      · exact ih _ (Loc.rel p _) _ _ _ _ hI hp hJ h
      · exact ih _ (Loc.rel p _) _ _ _ _ hI hp hJ h
    · rw [e] at h
      simp only [InsertResult.returned.injEq] at h
      obtain ⟨_, rfl⟩ := h
      exact fun _ => hJ
    · rw [e] at h
      simp only [InsertResult.returned.injEq] at h
      obtain ⟨_, rfl⟩ := h
      intro h1
      simp only [setData_index, allocNode_index, setData_size, allocNode_size] at h1
      have hnle : n ≤ t.nodeListIndex := by
        rcases hn with h0 | ⟨_, h2⟩ <;> omega
      simp only [setData_wroteOutside, allocNode_wroteOutside, allocNode_size, hJ,
        Bool.false_or, Bool.or_eq_false_iff, decide_eq_false_iff_not, not_le]
      omega
    · rw [e] at h
      have hI1 := hI.alloc hn hnull hlt c
      have hL1 := allocNode_locOK t hI n k c TRIE_NODE_EQ_CHILD
      have hE1 := (insertLoop_inv key d L _ _ _ _ _ code t' hI1 hL1 h).2
      intro h1
      have hnle : n ≤ t.nodeListIndex := by
        rcases hn with h0 | ⟨_, h2⟩ <;> omega
      have h2 := hE1.idx
      have h3 := hE1.size
      rw [allocNode_index] at h2
      rw [allocNode_size] at h3
      apply ih _ _ _ _ _ _ hI1 hL1 ?_ h h1
      simp only [allocNode_wroteOutside, hJ, Bool.false_or, Bool.or_eq_false_iff,
        decide_eq_false_iff_not, not_le]
      omega

theorem Reachable.overflow {t : TRIE} (h : Reachable t) :
    t.nodeListIndex = t.nodeListSize → 2 ≤ t.nodeListSize → t.wroteOutside = true := by
  induction h with
  | new a b n t h =>
    obtain ⟨mem, rfl⟩ := Trie_new_some h
    intro h1 h2
    have : (newTrie mem n).nodeListIndex = 1 := rfl
    omega
  | insert t t' fuel key data code hR hins ih =>
    exact insertLoop_overflow key data _ fuel t Loc.root 0 _ code t' hR.inv trivial ih hins

/-- In a block of two slots or more, a call of `Trie_Insert` returns `-1` only
after a write outside the block. -/
theorem fail_after_overflow {t : TRIE} (hR : Reachable t) {fuel : Nat} {key : CString}
    {d : Option Nat} {t' : TRIE}
    (h : Trie_Insert fuel t key d = InsertResult.returned (-1) t')
    (hsize : 2 ≤ t.nodeListSize) : t'.wroteOutside = true := by
  have hR' : Reachable t' := Reachable.insert t t' fuel key d (-1) hR h
  have hE := (insertLoop_inv key d _ fuel t Loc.root 0 _ (-1) t' hR.inv trivial h).2
  have hidx :=
    (insertLoop_fail_index key d _ fuel t Loc.root 0 _ (-1) t' hR.inv trivial h).2.1 rfl
  exact hR'.overflow hidx (by rw [hE.size]; exact hsize)

/-- C5 (capacity boundary), evaluated on a fresh trie of capacity `2`, whose
block holds the slots `0` and `1`: the one allocation the cursor allows is made
by `Trie_Insert( "a", ... )`, which returns `0` but has written outside the
block; slot `1` is still as `Trie_new` left it; and the next call,
`Trie_Insert( "foo", ... )`, returns `-1` with slot `1` free. -/
theorem capacity_two_has_no_usable_slot :
    (newTrie garbage 2).nodeListSize = 2 ∧ (newTrie garbage 2).wroteOutside = false ∧
      (Trie_Insert 10 (newTrie garbage 2) keyA (some 1)).code = some 0 ∧
      two1.wroteOutside = true ∧ two1.nodeListIndex = 2 ∧
      (two1.nodeList 1).splitchar = 0 ∧ (two1.nodeList 1).data = none ∧
      (∀ k, (two1.nodeList 1).relatives k = none) ∧
      (∀ (n : Fin 3) (k : Fin 3), (two1.nodeList n).relatives k ≠ some 1) ∧
      (Trie_Insert 10 two1 keyFoo (some 5)).code = some (-1) := by
  decide

/-- C6 (slot taken by an allocation), evaluated on a fresh trie of capacity `2`
(cursor `1`, slots `0` and `1`): `Trie_Insert( "a", ... )` returns `0`, leaves
the cursor at `2`, and the root's high child is slot `2`, which carries the
split character and the payload and is found by `Trie_Lookup( "a" )`; slot `1`
still holds what `Trie_new` wrote. -/
theorem first_allocation_takes_slot_two :
    (newTrie garbage 2).nodeListIndex = 1 ∧ (newTrie garbage 2).nodeListSize = 2 ∧
      (Trie_Insert 10 (newTrie garbage 2) keyA (some 1)).code = some 0 ∧
      two1.nodeListIndex = 2 ∧ two1.load (Loc.rel 0 TRIE_NODE_HIGH_CHILD) = some 2 ∧
      (two1.nodeList 2).splitchar = 97 ∧ (two1.nodeList 2).data = some 1 ∧
      (two1.nodeList 1).splitchar = 0 ∧ (two1.nodeList 1).data = none ∧
      Trie_Lookup 10 two1 keyA = some (some 1) := by
  decide

/-- When the byte count fits `size_t`, the block has as many slots as asked for. -/
theorem blockSlots_of_fits {m : Nat} (h : sizeof_TRIE_NODE * m < 2 ^ 64) :
    blockSlots m = m := by
  unfold blockSlots
  rw [Nat.mod_eq_of_lt h]
  exact Nat.mul_div_cancel_left m (by decide)

/-- C9 (construction).  When both allocations succeed and the byte count
`sizeof( TRIE_NODE ) * max( maxSize, 1 )` fits `size_t`, `Trie_new( maxSize )`
returns a trie with `nodeListSize = max( maxSize, 1 )`, `nodeListIndex = 1`,
`root = &nodeList[0]`, nothing written outside the block, and every one of the
`nodeListSize` slots holding split character `0`, payload `NULL` and three
`NULL` links, whatever the memory held before. -/
theorem Trie_new_postcondition (mem : Nat → TRIE_NODE) (maxSize : Nat)
    (hfit : sizeof_TRIE_NODE * max maxSize 1 < 2 ^ 64) :
    ∃ t, Trie_new true (some mem) maxSize = some t ∧ t.nodeListSize = max maxSize 1 ∧
      t.nodeListIndex = 1 ∧ t.root = some 0 ∧ t.wroteOutside = false ∧
      blockSlots t.nodeListSize = t.nodeListSize ∧
      ∀ i, i < t.nodeListSize →
        (t.nodeList i).splitchar = 0 ∧ (t.nodeList i).data = none ∧
          ∀ k, (t.nodeList i).relatives k = none := by
  have hsize : (newTrie mem maxSize).nodeListSize = max maxSize 1 := by
    show (if maxSize < 1 then 1 else maxSize) = max maxSize 1
    split_ifs with h1
    · have : maxSize = 0 := by omega
      subst this
      rfl
    · exact (max_eq_left (by omega)).symm
  have hslots : blockSlots (newTrie mem maxSize).nodeListSize =
      (newTrie mem maxSize).nodeListSize := by
    rw [hsize]
    exact blockSlots_of_fits hfit
  refine ⟨newTrie mem maxSize, rfl, hsize, rfl, rfl, ?_, hslots, ?_⟩
  · show decide (blockSlots (newTrie mem maxSize).nodeListSize <
        (newTrie mem maxSize).nodeListSize) = false
    rw [hslots]
    simp
  · intro i hi
    rw [newTrie_node mem maxSize i hi]
    exact ⟨rfl, rfl, fun _ => rfl⟩

theorem Trie_new_postcondition_witness :
    sizeof_TRIE_NODE * max 0 1 < 2 ^ 64 ∧
    ∃ t, Trie_new true (some garbage) 0 = some t ∧ t.nodeListSize = max 0 1 ∧
      t.nodeListIndex = 1 ∧ t.root = some 0 ∧ t.wroteOutside = false ∧
      blockSlots t.nodeListSize = t.nodeListSize ∧
      ∀ i, i < t.nodeListSize →
        (t.nodeList i).splitchar = 0 ∧ (t.nodeList i).data = none ∧
          ∀ k, (t.nodeList i).relatives k = none :=
  ⟨by decide, Trie_new_postcondition garbage 0 (by decide)⟩

/-- C9 fails for a size whose byte count does not fit `size_t`:
`Trie_new( 2^61 + 1 )` asks `malloc` for `40` bytes, one slot, sets
`nodeListSize = 2^61 + 1`, and its loop writes the slots from `1` on outside the
block. -/
theorem Trie_new_wraps_byte_count :
    sizeof_TRIE_NODE * (2 ^ 61 + 1) % 2 ^ 64 = 40 ∧ blockSlots (2 ^ 61 + 1) = 1 ∧
      (Trie_new true (some garbage) (2 ^ 61 + 1)).map TRIE.nodeListSize = some (2 ^ 61 + 1) ∧
      (Trie_new true (some garbage) (2 ^ 61 + 1)).map TRIE.wroteOutside = some true := by
  decide

/-! ## Frame of a call, slot by slot -/

/-- A `NULL` link of a slot in use is still `NULL` after the loop, or points to a
slot the loop has allocated. -/
theorem insertLoop_null_links (key : CString) (d : Option Nat) (L : Int) :
    ∀ (fuel : Nat) (t : TRIE) (curr : Loc) (i : Nat) (c : Int) (code : Int) (t' : TRIE),
      Inv t → LocOK t curr →
      insertLoop key d L fuel t curr i c = InsertResult.returned code t' →
      ∀ n k, Allocated t n → (t.nodeList n).relatives k = none →
        (t'.nodeList n).relatives k = none ∨
          ∃ j, (t'.nodeList n).relatives k = some j ∧ t.nodeListIndex < j := by
  intro fuel
  induction fuel with
  | zero =>
    intro t curr i c code t' _ _ h
    simp [insertLoop] at h
  | succ fuel ih =>
    intro t curr i c code t' hI hL h
    rw [insertLoop_succ] at h
    rcases insertIter_cases key d L hI hL i c with
      ⟨p, _, hp, e⟩ | ⟨_, _, e⟩ | ⟨n0, k0, _, hn0, hnull0, hlt, _, e⟩ |
      ⟨n0, k0, _, hn0, hnull0, hlt, _, e⟩
    · rw [e] at h
      split_ifs at h
      · exact ih _ (Loc.rel p _) _ _ _ _ hI hp h
      · exact ih _ (Loc.rel p _) _ _ _ _ hI hp h
      · exact ih _ (Loc.rel p _) _ _ _ _ hI hp h
    · rw [e] at h
      simp only [InsertResult.returned.injEq] at h
      obtain ⟨_, rfl⟩ := h
      intro n k _ hnk
      exact Or.inl hnk
    · rw [e] at h
      simp only [InsertResult.returned.injEq] at h
      obtain ⟨_, rfl⟩ := h
      intro n k hn hnk
      rw [setData_relatives]
      by_cases hc : n = n0 ∧ k = k0
      · obtain ⟨rfl, rfl⟩ := hc
        right
        exact ⟨_, allocNode_link_self t n k c (hn.ne_next hI), Nat.lt_succ_self _⟩
      · left
        rw [allocNode_link_other t n0 k0 c n k (hn.ne_next hI) hc]
        exact hnk
    · rw [e] at h
      have hI1 := hI.alloc hn0 hnull0 hlt c
      have hL1 := allocNode_locOK t hI n0 k0 c TRIE_NODE_EQ_CHILD
      have hE1 := (insertLoop_inv key d L _ _ _ _ _ code t' hI1 hL1 h).2
      intro n k hn hnk
      have hn1 : Allocated (allocNode t n0 k0 c) n :=
        hn.mono (by rw [allocNode_index]; omega)
      by_cases hc : n = n0 ∧ k = k0
      · obtain ⟨rfl, rfl⟩ := hc
        right
        exact ⟨_, hE1.link n k _ hn1 (allocNode_link_self t n k c (hn.ne_next hI)),
          Nat.lt_succ_self _⟩
      · have hnk1 : ((allocNode t n0 k0 c).nodeList n).relatives k = none := by
          rw [allocNode_link_other t n0 k0 c n k (hn.ne_next hI) hc]
          exact hnk
        rcases ih _ _ _ _ _ _ hI1 hL1 h n k hn1 hnk1 with h1 | ⟨j, h1, h2⟩
        · exact Or.inl h1
        · right
          refine ⟨j, h1, ?_⟩
          rw [allocNode_index] at h2
          omega

/-- The loop writes to slots in use and to the slots it allocates, to nothing else. -/
theorem insertLoop_untouched (key : CString) (d : Option Nat) (L : Int) :
    ∀ (fuel : Nat) (t : TRIE) (curr : Loc) (i : Nat) (c : Int) (code : Int) (t' : TRIE),
      Inv t → LocOK t curr →
      insertLoop key d L fuel t curr i c = InsertResult.returned code t' →
      ∀ m, ¬ Allocated t' m → t'.nodeList m = t.nodeList m := by
  intro fuel
  induction fuel with
  | zero =>
    intro t curr i c code t' _ _ h
    simp [insertLoop] at h
  | succ fuel ih =>
    intro t curr i c code t' hI hL h
    rw [insertLoop_succ] at h
    have halloc : ∀ (n0 : Nat) (k0 : Fin 3) (m : Nat), Allocated t n0 →
        m ≠ t.nodeListIndex + 1 → m ≠ n0 → (allocNode t n0 k0 c).nodeList m = t.nodeList m := by
      intro n0 k0 m _ h1 h2
      simp [allocNode, TrieNode_init, Function.update, h1, h2]
    rcases insertIter_cases key d L hI hL i c with
      ⟨p, _, hp, e⟩ | ⟨_, _, e⟩ | ⟨n0, k0, _, hn0, hnull0, hlt, _, e⟩ |
      ⟨n0, k0, _, hn0, hnull0, hlt, _, e⟩
    · rw [e] at h
      split_ifs at h
      · exact ih _ (Loc.rel p _) _ _ _ _ hI hp h
      · exact ih _ (Loc.rel p _) _ _ _ _ hI hp h
      · exact ih _ (Loc.rel p _) _ _ _ _ hI hp h
    · rw [e] at h
      simp only [InsertResult.returned.injEq] at h
      obtain ⟨_, rfl⟩ := h
      intro m _
      rfl
    · rw [e] at h
      simp only [InsertResult.returned.injEq] at h
      obtain ⟨_, rfl⟩ := h
      intro m hm
      have hidx := hI.idx
      have h1 : m ≠ t.nodeListIndex + 1 := by
        intro e1
        apply hm
        exact Or.inr ⟨by omega, by rw [setData_index, allocNode_index, e1]⟩
      have h2 : m ≠ n0 := by
        intro e2
        apply hm
        rw [e2]
        exact hn0.mono (by rw [setData_index, allocNode_index]; omega)
      have h3 : ((allocNode t n0 k0 c).setData (t.nodeListIndex + 1) d).nodeList m =
          (allocNode t n0 k0 c).nodeList m := by
        simp [TRIE.setData, Function.update, h1]
      rw [h3]
      exact halloc n0 k0 m hn0 h1 h2
    · rw [e] at h
      have hI1 := hI.alloc hn0 hnull0 hlt c
      have hL1 := allocNode_locOK t hI n0 k0 c TRIE_NODE_EQ_CHILD
      have hE1 := (insertLoop_inv key d L _ _ _ _ _ code t' hI1 hL1 h).2
      intro m hm
      rw [ih _ _ _ _ _ _ hI1 hL1 h m hm]
      have h1 : m ≠ t.nodeListIndex + 1 := by
        intro e1
        apply hm
        rw [e1]
        exact Allocated.mono hL1 hE1.idx
      have h2 : m ≠ n0 := by
        intro e2
        apply hm
        rw [e2]
        exact hn0.mono (le_trans (by rw [allocNode_index]; omega) hE1.idx)
      exact halloc n0 k0 m hn0 h1 h2

theorem newTrie_untouched (mem : Nat → TRIE_NODE) (maxSize : Nat) :
    Untouched (newTrie mem maxSize) := by
  intro m hm _
  exact newTrie_node mem maxSize m hm

theorem Reachable.untouched {t : TRIE} (h : Reachable t) : Untouched t := by
  induction h with
  | new a b n t h =>
    obtain ⟨mem, rfl⟩ := Trie_new_some h
    exact newTrie_untouched mem n
  | insert t t' fuel key data code hR hins ih =>
    have hI := hR.inv
    obtain ⟨_, hE⟩ := insertLoop_inv key data _ fuel t Loc.root 0 _ code t' hI trivial hins
    intro m hm hna
    rw [insertLoop_untouched key data _ fuel t Loc.root 0 _ code t' hI trivial hins m hna]
    apply ih m
    · rw [← hE.size]
      exact hm
    · intro ha
      exact hna (ha.mono hE.idx)

theorem Run.reachable {t0 t : TRIE} {log : List (CString × Option Nat × Int)}
    (h : Run t0 log t) (h0 : Reachable t0) : Reachable t := by
  induction h with
  | nil => exact h0
  | snoc fuel key data code t' _ hins ih => exact Reachable.insert _ t' fuel key data code ih hins

theorem Run.size {t0 t : TRIE} {log : List (CString × Option Nat × Int)}
    (h : Run t0 log t) (h0 : Reachable t0) : t.nodeListSize = t0.nodeListSize := by
  induction h with
  | nil => rfl
  | @snoc _ t fuel key data code t' hrun hins ih =>
    have hI := (hrun.reachable h0).inv
    rw [(insertLoop_inv key data _ fuel t Loc.root 0 _ code t' hI trivial hins).2.size]
    exact ih

/-- A trie whose block has the size asked for and whose cursor is still below
that size has seen no write outside its block. -/
theorem Run.inside {t0 t : TRIE} {log : List (CString × Option Nat × Int)}
    (h : Run t0 log t) {a : Bool} {b : Option (Nat → TRIE_NODE)} {n : Nat}
    (hnew : Trie_new a b n = some t0) (hfit : sizeof_TRIE_NODE * max n 1 < 2 ^ 64) :
    t.nodeListIndex < t.nodeListSize → t.wroteOutside = false := by
  have h0 : Reachable t0 := Reachable.new a b n t0 hnew
  induction h with
  | nil =>
    intro _
    obtain ⟨mem, rfl⟩ := Trie_new_some hnew
    have hsize : (newTrie mem n).nodeListSize = max n 1 := by
      show (if n < 1 then 1 else n) = max n 1
      split_ifs with h1
      · have : n = 0 := by omega
        subst this
        rfl
      · exact (max_eq_left (by omega)).symm
    show decide (blockSlots (newTrie mem n).nodeListSize < (newTrie mem n).nodeListSize) = false
    rw [hsize, blockSlots_of_fits hfit]
    simp
  | @snoc _ t fuel key data code t' hrun hins ih =>
    intro hlt
    have hI := (hrun.reachable h0).inv
    have hE := (insertLoop_inv key data _ fuel t Loc.root 0 _ code t' hI trivial hins).2
    have h1 := hE.idx
    have h2 := hE.size
    exact insertLoop_inside key data _ fuel t Loc.root 0 _ code t' hI trivial
      (ih (by omega)) hins hlt

/-! ## Frame, cursor, termination, tree shape -/

/-- C15 (append-only frame).  For every slot that is in use before a returning
`Trie_Insert` call on a reachable trie, the root slot included, the call leaves
the split character and every non-`NULL` child link as they were; a `NULL` link
stays `NULL` or becomes a link to a slot allocated by this call.  (The payload
of such a slot is left as it was, too: the code attaches payloads to new nodes
only.) -/
theorem insert_is_append_only (t : TRIE) (hR : Reachable t) (key : CString)
    (data : Option Nat) (fuel : Nat) (code : Int) (t' : TRIE)
    (hins : Trie_Insert fuel t key data = InsertResult.returned code t') :
    ∀ n, Allocated t n →
      (t'.nodeList n).splitchar = (t.nodeList n).splitchar ∧
      (t'.nodeList n).data = (t.nodeList n).data ∧
      (∀ k j, (t.nodeList n).relatives k = some j → (t'.nodeList n).relatives k = some j) ∧
      (∀ k, (t.nodeList n).relatives k = none →
        (t'.nodeList n).relatives k = none ∨
          ∃ j, (t'.nodeList n).relatives k = some j ∧ t.nodeListIndex < j ∧
            j ≤ t'.nodeListIndex) := by
  intro n hn
  have hI := hR.inv
  obtain ⟨hI', hE⟩ := insertLoop_inv key data _ fuel t Loc.root 0 _ code t' hI trivial hins
  refine ⟨hE.char n hn, hE.data n hn, fun k j h => hE.link n k j hn h, fun k hk => ?_⟩
  rcases insertLoop_null_links key data _ fuel t Loc.root 0 _ code t' hI trivial hins n k hn hk
    with h | ⟨j, h1, h2⟩
  · exact Or.inl h
  · exact Or.inr ⟨j, h1, h2, (hI'.link n k j (hn.mono hE.idx) h1).2.2⟩

theorem insert_is_append_only_witness :
    Reachable test1 ∧
      Trie_Insert 200 test1 keyEdgar (some 82) = InsertResult.returned 0 test2 ∧
      ∀ n, Allocated test1 n →
        (test2.nodeList n).splitchar = (test1.nodeList n).splitchar ∧
        (test2.nodeList n).data = (test1.nodeList n).data ∧
        (∀ k j, (test1.nodeList n).relatives k = some j →
          (test2.nodeList n).relatives k = some j) ∧
        (∀ k, (test1.nodeList n).relatives k = none →
          (test2.nodeList n).relatives k = none ∨
            ∃ j, (test2.nodeList n).relatives k = some j ∧ test1.nodeListIndex < j ∧
              j ≤ test2.nodeListIndex) :=
  ⟨test1_reachable, returned_of_code (by decide) test1,
    insert_is_append_only test1 test1_reachable keyEdgar (some 82) 200 0 test2
      (returned_of_code (by decide) test1)⟩

/-- C16 (monotonic bounded cursor).  In every trie that comes from
`Trie_new( n )` by returning `Trie_Insert` calls, `1 <= nodeListIndex <=
nodeListSize` and `nodeListSize` is still `max( n, 1 )`; every returning
`Trie_Insert` call on a reachable trie leaves `nodeListIndex` at least as large
as it was and `nodeListSize` as it was.  `Trie_Lookup` writes nothing at all,
which the embedding records by giving it no result trie. -/
theorem cursor_monotone_bounded :
    (∀ (a : Bool) (b : Option (Nat → TRIE_NODE)) (n : Nat) (t0 : TRIE)
        (log : List (CString × Option Nat × Int)) (t : TRIE),
        Trie_new a b n = some t0 → Run t0 log t →
        1 ≤ t.nodeListIndex ∧ t.nodeListIndex ≤ t.nodeListSize ∧
          t.nodeListSize = max n 1) ∧
      (∀ (t : TRIE), Reachable t → ∀ (key : CString) (data : Option Nat) (fuel : Nat)
        (code : Int) (t' : TRIE),
        Trie_Insert fuel t key data = InsertResult.returned code t' →
        t.nodeListIndex ≤ t'.nodeListIndex ∧ t'.nodeListSize = t.nodeListSize) := by
  constructor
  · intro a b n t0 log t hnew hrun
    have h0 : Reachable t0 := Reachable.new a b n t0 hnew
    have hI := (hrun.reachable h0).inv
    refine ⟨hI.idx, hI.cap, ?_⟩
    rw [hrun.size h0]
    obtain ⟨mem, rfl⟩ := Trie_new_some hnew
    show (if n < 1 then 1 else n) = max n 1
    split_ifs with h1
    · have : n = 0 := by omega
      subst this
      rfl
    · exact (max_eq_left (by omega)).symm
  · intro t hR key data fuel code t' hins
    have hE := (insertLoop_inv key data _ fuel t Loc.root 0 _ code t' hR.inv trivial hins).2
    exact ⟨hE.idx, hE.size⟩

theorem cursor_monotone_bounded_witness :
    Trie_new true (some garbage) 100 = some test0 ∧
      Run test0 [(keyFoo, some 2142, 0)] test1 ∧
      (1 ≤ test1.nodeListIndex ∧ test1.nodeListIndex ≤ test1.nodeListSize ∧
        test1.nodeListSize = max 100 1) :=
  ⟨rfl, Run.snoc 200 keyFoo (some 2142) 0 test1 (Run.nil test0)
      (returned_of_code (by decide) test0),
    cursor_monotone_bounded.1 true (some garbage) 100 test0 [(keyFoo, some 2142, 0)] test1 rfl
      (Run.snoc 200 keyFoo (some 2142) 0 test1 (Run.nil test0)
        (returned_of_code (by decide) test0))⟩

/-- C17 (insert terminates), evaluated on the self-test trie of capacity `100`
that holds `"foo"`, nothing having been written outside its block so far: a
second `Trie_Insert( "foo", ... )`, for a key of length `3`, reads the key up to
`key[ 99 ]`, and initialises the slot `100`, outside the block, before it comes
to its `return -1`. -/
theorem second_insert_leaves_key_and_block :
    strlen keyFoo = 3 ∧ test1.nodeListSize = 100 ∧ test1.wroteOutside = false ∧
      99 ∈ Trie_Insert_reads 200 test1 keyFoo (some 7) ∧
      (Trie_Insert 200 test1 keyFoo (some 7)).code = some (-1) ∧
      (test1again.nodeList 99).relatives TRIE_NODE_EQ_CHILD = some 100 ∧
      (test1again.nodeList 100).splitchar = keyFoo.get 98 ∧
      test1again.wroteOutside = true := by
  decide

theorem slot_with_link {t : TRIE} (hU : Untouched t) {i : Nat} {k : Fin 3} {j : Nat}
    (hi : Allocated t i ∨ i < t.nodeListSize) (h : (t.nodeList i).relatives k = some j) :
    Allocated t i := by
  by_contra hna
  rcases hi with hi | hi
  · exact hna hi
  · rw [hU i hi hna] at h
    simp [blankNode] at h

/-- C20 (tree shape).  In a reachable trie, for every slot `i` that is in use or
inside the malloc-ed block: every non-`NULL` child link of slot `i` points to a
slot `j` with `i < j <= nodeListIndex`; no slot is the target of two child
links; `root` is slot `0`; and following one or more child links always leads
to a larger slot number, so no slot is its own descendant. -/
theorem arena_is_a_tree (t : TRIE) (hR : Reachable t) :
    (∀ i k j, (Allocated t i ∨ i < t.nodeListSize) → (t.nodeList i).relatives k = some j →
        i < j ∧ j ≤ t.nodeListIndex) ∧
      (∀ i i' k k' j, (Allocated t i ∨ i < t.nodeListSize) →
        (Allocated t i' ∨ i' < t.nodeListSize) →
        (t.nodeList i).relatives k = some j → (t.nodeList i').relatives k' = some j →
        i = i' ∧ k = k') ∧
      t.root = some 0 ∧
      (∀ a b, (Allocated t a ∨ a < t.nodeListSize) → Relation.TransGen (ChildOf t) a b →
        a < b) := by
  have hI := hR.inv
  have hU := hR.untouched
  refine ⟨?_, ?_, hI.root, ?_⟩
  · intro i k j hi h
    obtain ⟨h1, _, h3⟩ := hI.link i k j (slot_with_link hU hi h) h
    exact ⟨h1, h3⟩
  · intro i i' k k' j hi hi' h h'
    exact hI.inj i i' k k' j (slot_with_link hU hi h) (slot_with_link hU hi' h') h h'
  · intro a b ha hab
    have key : a < b ∧ Allocated t b := by
      induction hab with
      | single h =>
        obtain ⟨k, hk⟩ := h
        obtain ⟨h1, h2, h3⟩ := hI.link a k _ (slot_with_link hU ha hk) hk
        exact ⟨h1, Or.inr ⟨h2, h3⟩⟩
      | tail _ h ih =>
        obtain ⟨k, hk⟩ := h
        obtain ⟨h1, h2, h3⟩ := hI.link _ k _ ih.2 hk
        exact ⟨lt_trans ih.1 h1, Or.inr ⟨h2, h3⟩⟩
    exact key.1

theorem arena_is_a_tree_witness :
    Reachable test1 ∧
      ((∀ i k j, (Allocated test1 i ∨ i < test1.nodeListSize) →
          (test1.nodeList i).relatives k = some j → i < j ∧ j ≤ test1.nodeListIndex) ∧
        (∀ i i' k k' j, (Allocated test1 i ∨ i < test1.nodeListSize) →
          (Allocated test1 i' ∨ i' < test1.nodeListSize) →
          (test1.nodeList i).relatives k = some j → (test1.nodeList i').relatives k' = some j →
          i = i' ∧ k = k') ∧
        test1.root = some 0 ∧
        (∀ a b, (Allocated test1 a ∨ a < test1.nodeListSize) →
          Relation.TransGen (ChildOf test1) a b → a < b)) :=
  ⟨test1_reachable, arena_is_a_tree test1 test1_reachable⟩

/-! ## Reads of the key -/

theorem get_ne_zero_lt (key : CString) (i : Nat) (hi : i ≤ strlen key) (h : key.get i ≠ 0) :
    i < strlen key := by
  rcases Nat.lt_or_ge i (strlen key) with hlt | hge
  · exact hlt
  · exfalso
    have : i = strlen key := le_antisymm hi hge
    rw [this] at h
    exact h (get_strlen key)

/-- A lookup with a non-empty key reads the key at the indices `0 .. strlen` only. -/
theorem lookupReads_le (t : TRIE) (key : CString) :
    ∀ (N : Nat) (p : Option Nat) (i : Nat), i < strlen key →
      ∀ x, x ∈ lookupReads t key N p i → x ≤ strlen key := by
  intro N
  induction N with
  | zero =>
    intro p i _ x hx
    simp [lookupReads] at hx
  | succ N ih =>
    intro p i hi x hx
    cases p with
    | none => simp [lookupReads] at hx
    | some q =>
      simp only [lookupReads] at hx
      split_ifs at hx with h1 h2 h3
      · simp only [List.mem_cons, List.mem_nil_iff, or_false] at hx
        rcases hx with rfl | rfl <;> omega
      · simp only [List.mem_cons] at hx
        rcases hx with rfl | rfl | hx
        · omega
        · omega
        · exact ih _ _ (get_ne_zero_lt key (i + 1) (by omega) h2) x hx
      · simp only [List.mem_cons] at hx
        rcases hx with rfl | rfl | hx
        · omega
        · omega
        · exact ih _ _ hi x hx
      · simp only [List.mem_cons] at hx
        rcases hx with rfl | rfl | hx
        · omega
        · omega
        · exact ih _ _ hi x hx

/-- The root slot keeps the split character `0` and never gets a payload. -/
theorem Reachable.root_node {t : TRIE} (h : Reachable t) :
    (t.nodeList 0).splitchar = 0 ∧ (t.nodeList 0).data = none := by
  induction h with
  | new a b n t h =>
    obtain ⟨mem, rfl⟩ := Trie_new_some h
    rw [newTrie_node mem n 0 (newTrie_size_pos mem n)]
    exact ⟨rfl, rfl⟩
  | insert t t' fuel key data code hR hins ih =>
    have hE := (insertLoop_inv key data _ fuel t Loc.root 0 _ code t' hR.inv trivial hins).2
    rw [hE.char 0 (Or.inl rfl), hE.data 0 (Or.inl rfl)]
    exact ih

/-- A lookup with the empty key reads `key[ 1 ]`, the byte behind the terminator,
in every reachable trie: the terminator matches the split character `0` of
the root slot. -/
theorem lookupReads_empty {t : TRIE} (hR : Reachable t) (key : CString)
    (hkey : strlen key = 0) (N : Nat) : 1 ∈ Trie_Lookup_reads (N + 1) t key := by
  have h0 : key.get 0 = 0 := by
    have := get_strlen key
    rw [hkey] at this
    exact this
  unfold Trie_Lookup_reads
  rw [hR.inv.root]
  simp only [lookupReads]
  rw [if_pos (by rw [h0, hR.root_node.1])]
  simp

/-- The loop of a call that returns `0` reads the key in front of the terminator only. -/
theorem insertLoopReads_le (key : CString) (d : Option Nat) :
    ∀ (fuel : Nat) (t : TRIE) (curr : Loc) (i : Nat) (c : Int) (t' : TRIE),
      Inv t → LocOK t curr →
      insertLoop key d (strlen key : Nat) fuel t curr i c = InsertResult.returned 0 t' →
      ∀ x, x ∈ insertLoopReads key d (strlen key : Nat) fuel t curr i c → x < strlen key := by
  intro fuel
  induction fuel with
  | zero =>
    intro t curr i c t' _ _ h
    simp [insertLoop] at h
  | succ fuel ih =>
    intro t curr i c t' hI hL h x hx
    rw [insertLoop_succ] at h
    simp only [insertLoopReads] at hx
    rcases insertIter_cases key d (strlen key : Nat) hI hL i c with
      ⟨p, _, hp, e⟩ | ⟨_, _, e⟩ | ⟨n, k, _, hn, hnull, hlt, _, e⟩ |
      ⟨n, k, _, hn, hnull, hlt, _, e⟩
    · rw [e] at h hx
      by_cases hm : c = (t.nodeList p).splitchar
      · rw [if_pos hm] at h hx
        have hidx := insertLoop_zero_index key d _ fuel t (Loc.rel p _) (i + 1) _ t' hI hp h
        simp only [Step.reads, List.mem_append] at hx
        rcases hx with hx | hx
        · split_ifs at hx
          · simp at hx
          · simp only [List.mem_singleton] at hx
            push_cast at hidx
            omega
        · exact ih _ (Loc.rel p _) _ _ _ hI hp h x hx
      · rw [if_neg hm] at h hx
        simp only [Step.reads, if_true, List.nil_append] at hx
        exact ih _ (Loc.rel p _) _ _ _ hI hp h x hx
    · rw [e] at hx
      simp [Step.reads] at hx
    · rw [e] at hx
      simp [Step.reads] at hx
    · rw [e] at h hx
      have hI1 := hI.alloc hn hnull hlt c
      have hL1 := allocNode_locOK t hI n k c TRIE_NODE_EQ_CHILD
      have hidx := insertLoop_zero_index key d _ fuel _ _ (i + 1) _ t' hI1 hL1 h
      simp only [Step.reads, List.mem_append] at hx
      rcases hx with hx | hx
      · split_ifs at hx
        · simp at hx
        · simp only [List.mem_singleton] at hx
          push_cast at hidx
          omega
      · exact ih _ _ _ _ _ hI1 hL1 h x hx

/-- A call of `Trie_Insert` that returns `0`, for a key of fewer than `2^31`
characters, reads the key at `0 .. strlen` only. -/
theorem Trie_Insert_reads_le {t : TRIE} (hR : Reachable t) (key : CString)
    (hlen : strlen key < 2 ^ 31) (d : Option Nat)
    (fuel : Nat) (t' : TRIE) (h : Trie_Insert fuel t key d = InsertResult.returned 0 t') :
    ∀ x, x ∈ Trie_Insert_reads fuel t key d → x ≤ strlen key := by
  intro x hx
  rw [Trie_Insert_short hlen] at h
  unfold Trie_Insert_reads at hx
  rw [int_of_size_t_of_lt hlen] at hx
  simp only [List.mem_append, List.mem_range, List.mem_cons] at hx
  rcases hx with hx | rfl | hx
  · omega
  · omega
  · exact le_of_lt (insertLoopReads_le key d fuel t Loc.root 0 _ t' hR.inv trivial h x hx)

/-! ## A key whose last character meets an existing node -/

/-- C11 (payload attached at a matched final node), evaluated on the self-test
trie: after `Trie_Insert( "foo", ... )` has returned `0` (cursor `4`),
`Trie_Insert( "fo", ... )` returns `-1`, leaves the cursor at `100`, and
`Trie_Lookup( "fo" )` returns `NULL` afterwards as it did before. -/
theorem insert_of_fo_after_foo_fails :
    (Trie_Insert 200 test0 keyFoo (some 2142)).code = some 0 ∧ test1.nodeListIndex = 4 ∧
      Trie_Lookup 200 test1 keyFo = some none ∧
      (Trie_Insert 200 test1 keyFo (some 7)).code = some (-1) ∧
      test1fo.nodeListIndex = 100 ∧ Trie_Lookup 200 test1fo keyFo = some none := by
  decide

/-- C12 (insert reads the key within its bounds), evaluated on a trie of
capacity `8` that holds `"a"`: a second `Trie_Insert( "a", ... )`, for a key of
length `1`, reads `key[ 2 ]` up to `key[ 7 ]` before it returns `-1`. -/
theorem second_insert_reads_behind_terminator :
    strlen keyA = 1 ∧ (Trie_Insert 20 (newTrie garbage 8) keyA (some 1)).code = some 0 ∧
      Trie_Insert_reads 20 (newTrie garbage 8) keyA (some 1) = [0, 1, 0] ∧
      (Trie_Insert 20 eight1 keyA (some 2)).code = some (-1) ∧
      Trie_Insert_reads 20 eight1 keyA (some 2) = [0, 1, 0, 1, 2, 3, 4, 5, 6, 7] := by
  decide

/-- C13 (lookup reads the key within its bounds), evaluated with the empty key
`""`, of length `0`: on the fresh self-test trie and on the self-test trie with
its three keys, `Trie_Lookup( "" )` reads `key[ 0 ]` and `key[ 1 ]` and returns
`NULL`; with the key `"foo"` the reads stay within `0 .. 3`. -/
theorem lookup_of_empty_key_reads_behind_terminator :
    strlen keyEmpty = 0 ∧ Trie_Lookup_reads 200 test0 keyEmpty = [0, 1] ∧
      Trie_Lookup 200 test0 keyEmpty = some none ∧
      Trie_Lookup_reads 200 test3 keyEmpty = [0, 1] ∧
      Trie_Lookup 200 test3 keyEmpty = some none ∧
      Trie_Lookup_reads 200 test3 keyFoo = [0, 0, 0, 1, 1, 2, 2, 3] := by
  decide

/-! ## Ordering of the split characters -/

theorem LHLoc.is_rel {t : TRIE} {n : Nat} {side : Fin 3} {l : Loc} (h : LHLoc t n side l) :
    ∃ m k, l = Loc.rel m k ∧ (k = TRIE_NODE_EQ_CHILD → m = n ∧ k = side) := by
  cases h with
  | here => exact ⟨n, side, rfl, fun _ => ⟨rfl, rfl⟩⟩
  | down k _ _ hk => exact ⟨_, k, rfl, fun e => absurd e hk⟩

theorem LHLoc.ok {t : TRIE} (hI : Inv t) {n : Nat} {side : Fin 3} (hn : Allocated t n)
    {l : Loc} (h : LHLoc t n side l) : LocOK t l := by
  induction h with
  | here => exact hn
  | down k _ hl _ ih => exact hI.load_allocated ih hl

theorem low_ne_high : TRIE_NODE_LOW_CHILD ≠ TRIE_NODE_HIGH_CHILD := by decide

theorem Bounded.of_eq (t : TRIE) (p : Nat) (c : Int) :
    Bounded t (Loc.rel p TRIE_NODE_EQ_CHILD) c := by
  intro n side _ h
  obtain ⟨m, k, e, hk⟩ := h.is_rel
  obtain ⟨_, rfl⟩ := Loc.rel.inj e
  obtain ⟨_, rfl⟩ := hk rfl
  exact ⟨fun e => absurd e.symm low_ne_eq, fun e => absurd e.symm high_ne_eq⟩

theorem Bounded.of_root (t : TRIE) (c : Int) : Bounded t Loc.root c := by
  intro n side _ h
  obtain ⟨m, k, e, _⟩ := h.is_rel
  exact absurd e (by simp)

/-- Stepping down into the low or the high child keeps the character fitting. -/
theorem Bounded.branch {t : TRIE} (hI : Inv t) {curr : Loc} (hL : LocOK t curr) {c : Int}
    (hB : Bounded t curr c) {p : Nat} (hl : t.load curr = some p)
    (hm : c ≠ (t.nodeList p).splitchar) :
    Bounded t
      (Loc.rel p
        (if c < (t.nodeList p).splitchar then TRIE_NODE_LOW_CHILD else TRIE_NODE_HIGH_CHILD))
      c := by
  intro n side hn h
  generalize hloc : Loc.rel p
    (if c < (t.nodeList p).splitchar then TRIE_NODE_LOW_CHILD else TRIE_NODE_HIGH_CHILD) = l
    at h
  cases h with
  | here =>
    obtain ⟨rfl, hside⟩ := Loc.rel.inj hloc
    constructor
    · intro e
      by_contra hlt
      rw [if_neg hlt] at hside
      rw [← hside] at e
      exact low_ne_high e.symm
    · intro e
      by_cases hlt : c < (t.nodeList p).splitchar
      · rw [if_pos hlt] at hside
        rw [← hside] at e
        exact absurd e low_ne_high
      · exact lt_of_le_of_ne (not_lt.mp hlt) (fun e' => hm e'.symm)
  | @down l0 b k h0 hl0 hk =>
    obtain ⟨rfl, _⟩ := Loc.rel.inj hloc
    have : l0 = curr := hI.load_inj (h0.ok hI hn) hL hl0 hl
    subst this
    exact hB n side hn h0

/-- The link fields below a slot after an allocation at `&nodeList[n0].relatives[k0]`. -/
theorem LHLoc.after_alloc {t : TRIE} (hI : Inv t) {n0 : Nat} {k0 : Fin 3} {c : Int}
    {n : Nat} {side : Fin 3} {l : Loc} (hn : Allocated (allocNode t n0 k0 c) n)
    (h : LHLoc (allocNode t n0 k0 c) n side l) :
    (n = t.nodeListIndex + 1 ∧ l = Loc.rel (t.nodeListIndex + 1) side) ∨
      (Allocated t n ∧ LHLoc t n side l) ∨
      (Allocated t n ∧ LHLoc t n side (Loc.rel n0 k0) ∧ ∃ k, l = Loc.rel (t.nodeListIndex + 1) k) := by
  induction h with
  | here =>
    rcases allocNode_allocated hn with e | ha
    · exact Or.inl ⟨e, by rw [e]⟩
    · exact Or.inr (Or.inl ⟨ha, LHLoc.here⟩)
  | @down l0 b k h0 hl0 hk ih =>
    have hnone : ∀ k', (allocNode t n0 k0 c).load (Loc.rel (t.nodeListIndex + 1) k') = none := by
      intro k'
      show ((allocNode t n0 k0 c).nodeList (t.nodeListIndex + 1)).relatives k' = none
      rw [allocNode_new]
    rcases ih with ⟨_, e⟩ | ⟨ha, h1⟩ | ⟨_, _, k', e⟩
    · rw [e, hnone] at hl0
      exact absurd hl0 (by simp)
    · obtain ⟨m, k', e, _⟩ := h1.is_rel
      subst e
      have hm : Allocated t m := h1.ok hI ha
      by_cases hc : m = n0 ∧ k' = k0
      · obtain ⟨rfl, rfl⟩ := hc
        have hl1 : ((allocNode t m k' c).nodeList m).relatives k' = some b := hl0
        rw [allocNode_link_self t m k' c (hm.ne_next hI)] at hl1
        have : b = t.nodeListIndex + 1 := (Option.some.inj hl1).symm
        subst this
        exact Or.inr (Or.inr ⟨ha, h1, k, rfl⟩)
      · have hl1 : ((allocNode t n0 k0 c).nodeList m).relatives k' = some b := hl0
        rw [allocNode_link_other t n0 k0 c m k' (hm.ne_next hI) hc] at hl1
        exact Or.inr (Or.inl ⟨ha, LHLoc.down k h1 hl1 hk⟩)
    · rw [e, hnone] at hl0
      exact absurd hl0 (by simp)

theorem Ordered.afterAlloc {t : TRIE} (hI : Inv t) (hO : Ordered t) {n0 : Nat} {k0 : Fin 3}
    (hn0 : Allocated t n0) {c : Int} (hB : Bounded t (Loc.rel n0 k0) c) :
    Ordered (allocNode t n0 k0 c) := by
  intro n side l b hn h hl
  have hnone : ∀ k', (allocNode t n0 k0 c).load (Loc.rel (t.nodeListIndex + 1) k') = none := by
    intro k'
    show ((allocNode t n0 k0 c).nodeList (t.nodeListIndex + 1)).relatives k' = none
    rw [allocNode_new]
  rcases h.after_alloc hI hn with ⟨_, e⟩ | ⟨ha, h1⟩ | ⟨_, _, k', e⟩
  · rw [e, hnone] at hl
    exact absurd hl (by simp)
  · obtain ⟨m, k', e, _⟩ := h1.is_rel
    subst e
    have hm : Allocated t m := h1.ok hI ha
    rw [allocNode_splitchar t n0 k0 c n (ha.ne_next hI)]
    by_cases hc : m = n0 ∧ k' = k0
    · obtain ⟨rfl, rfl⟩ := hc
      have hl1 : ((allocNode t m k' c).nodeList m).relatives k' = some b := hl
      rw [allocNode_link_self t m k' c (hm.ne_next hI)] at hl1
      have : b = t.nodeListIndex + 1 := (Option.some.inj hl1).symm
      subst this
      rw [allocNode_new]
      exact hB n side ha h1
    · have hl1 : ((allocNode t n0 k0 c).nodeList m).relatives k' = some b := hl
      rw [allocNode_link_other t n0 k0 c m k' (hm.ne_next hI) hc] at hl1
      have hb : Allocated t b := hI.load_allocated (show LocOK t (Loc.rel m k') from hm) hl1
      rw [allocNode_splitchar t n0 k0 c b (hb.ne_next hI)]
      exact hO n side (Loc.rel m k') b ha h1 hl1
  · rw [e, hnone] at hl
    exact absurd hl (by simp)

theorem LHLoc.beforeData {t : TRIE} {p : Nat} {d : Option Nat} {n : Nat} {side : Fin 3}
    {l : Loc} (h : LHLoc (t.setData p d) n side l) : LHLoc t n side l := by
  induction h with
  | here => exact LHLoc.here
  | @down l0 b k _ hl0 hk ih =>
    refine LHLoc.down k ih ?_ hk
    obtain ⟨m, k', e, _⟩ := ih.is_rel
    subst e
    have hl1 : ((t.setData p d).nodeList m).relatives k' = some b := hl0
    rw [setData_relatives] at hl1
    exact hl1

theorem Ordered.afterData {t : TRIE} (hO : Ordered t) (p : Nat) (d : Option Nat) :
    Ordered (t.setData p d) := by
  intro n side l b hn h hl
  have h1 := h.beforeData
  obtain ⟨m, k', e, _⟩ := h1.is_rel
  subst e
  have hl1 : ((t.setData p d).nodeList m).relatives k' = some b := hl
  rw [setData_relatives] at hl1
  rw [setData_splitchar, setData_splitchar]
  exact hO n side (Loc.rel m k') b hn h1 hl1

/-- The insert loop keeps the split characters ordered. -/
theorem insertLoop_ordered (key : CString) (d : Option Nat) (L : Int) :
    ∀ (fuel : Nat) (t : TRIE) (curr : Loc) (i : Nat) (c : Int) (code : Int) (t' : TRIE),
      Inv t → LocOK t curr → Ordered t → Bounded t curr c →
      insertLoop key d L fuel t curr i c = InsertResult.returned code t' → Ordered t' := by
  intro fuel
  induction fuel with
  | zero =>
    intro t curr i c code t' _ _ _ _ h
    simp [insertLoop] at h
  | succ fuel ih =>
    intro t curr i c code t' hI hL hO hB h
    rw [insertLoop_succ] at h
    rcases insertIter_cases key d L hI hL i c with
      ⟨p, hl, hp, e⟩ | ⟨_, _, e⟩ | ⟨n, k, rfl, hn, hnull, hlt, _, e⟩ |
      ⟨n, k, rfl, hn, hnull, hlt, _, e⟩
    · rw [e] at h
      by_cases hm : c = (t.nodeList p).splitchar
      · rw [if_pos hm] at h
        exact ih _ (Loc.rel p _) _ _ _ _ hI hp hO (Bounded.of_eq t p _) h
      · rw [if_neg hm] at h
        exact ih _ (Loc.rel p _) _ _ _ _ hI hp hO (hB.branch hI hL hl hm) h
    · rw [e] at h
      simp only [InsertResult.returned.injEq] at h
      obtain ⟨_, rfl⟩ := h
      exact hO
    · rw [e] at h
      simp only [InsertResult.returned.injEq] at h
      obtain ⟨_, rfl⟩ := h
      exact (hO.afterAlloc hI hn hB).afterData _ _
    · rw [e] at h
      exact ih _ _ _ _ _ _ (hI.alloc hn hnull hlt c) (allocNode_locOK t hI n k c _)
        (hO.afterAlloc hI hn hB) (Bounded.of_eq _ _ _) h

theorem newTrie_ordered (mem : Nat → TRIE_NODE) (maxSize : Nat) :
    Ordered (newTrie mem maxSize) := by
  intro n side l b hn h hl
  exfalso
  have hI := newTrie_inv mem maxSize
  obtain ⟨m, k, e, _⟩ := h.is_rel
  subst e
  have hm : Allocated (newTrie mem maxSize) m := h.ok hI hn
  have hm0 : m = 0 := by
    rcases hm with h0 | ⟨h1, h2⟩
    · exact h0
    · have : (newTrie mem maxSize).nodeListIndex = 1 := rfl
      omega
  subst hm0
  have hl1 : ((newTrie mem maxSize).nodeList 0).relatives k = some b := hl
  rw [newTrie_node mem maxSize 0 (newTrie_size_pos mem maxSize)] at hl1
  simp at hl1

theorem Reachable.ordered {t : TRIE} (h : Reachable t) : Ordered t := by
  induction h with
  | new a b n t h =>
    obtain ⟨mem, rfl⟩ := Trie_new_some h
    exact newTrie_ordered mem n
  | insert t t' fuel key data code hR hins ih =>
    exact insertLoop_ordered key data _ fuel t Loc.root 0 _ code t' hR.inv trivial ih
      (Bounded.of_root t _) hins

theorem LHReach.loc {t : TRIE} {n : Nat} {side : Fin 3} {j b : Nat}
    (hj : (t.nodeList n).relatives side = some j) (h : LHReach t j b) :
    ∃ l, LHLoc t n side l ∧ t.load l = some b := by
  induction h with
  | refl => exact ⟨Loc.rel n side, LHLoc.here, hj⟩
  | step k _ hk hl ih =>
    obtain ⟨l0, h0, hl0⟩ := ih
    exact ⟨Loc.rel _ k, LHLoc.down k h0 hl0 hk, hl⟩

/-- C14 (ordering invariant of the ternary search tree).  In a reachable trie,
for every slot `n` that is in use or inside the malloc-ed block: every slot
reachable from the low child of `n` through low and high links only has a
split character smaller than that of `n`, and every slot reachable in that way
from the high child of `n` has a larger one (comparison of the promoted `char`
values, as in the code). -/
theorem tst_ordering (t : TRIE) (hR : Reachable t) (n j b : Nat)
    (hn : Allocated t n ∨ n < t.nodeListSize) :
    ((t.nodeList n).relatives TRIE_NODE_LOW_CHILD = some j → LHReach t j b →
        (t.nodeList b).splitchar < (t.nodeList n).splitchar) ∧
      ((t.nodeList n).relatives TRIE_NODE_HIGH_CHILD = some j → LHReach t j b →
        (t.nodeList n).splitchar < (t.nodeList b).splitchar) := by
  constructor
  · intro hj h
    obtain ⟨l, h1, h2⟩ := h.loc hj
    exact (hR.ordered n _ l b (slot_with_link hR.untouched hn hj) h1 h2).1 rfl
  · intro hj h
    obtain ⟨l, h1, h2⟩ := h.loc hj
    exact (hR.ordered n _ l b (slot_with_link hR.untouched hn hj) h1 h2).2 rfl

/-! ## The trie as a map -/

theorem test3_reachable : Reachable test3 :=
  Reachable.insert test2 test3 200 keyFor (some 84) 0 test2_reachable
    (returned_of_code (by decide) test2)

theorem tst_ordering_witness :
    Reachable test3 ∧ (Allocated test3 2 ∨ 2 < test3.nodeListSize) ∧
      (test3.nodeList 2).relatives TRIE_NODE_LOW_CHILD = some 5 ∧ LHReach test3 5 5 ∧
      (test3.nodeList 5).splitchar < (test3.nodeList 2).splitchar :=
  ⟨test3_reachable, Or.inr (by decide), by decide, LHReach.refl 5,
    (tst_ordering test3 test3_reachable 2 5 5 (Or.inr (by decide))).1 (by decide)
      (LHReach.refl 5)⟩

theorem strlen_congr {k1 k2 : CString} (h : k1.text = k2.text) : strlen k1 = strlen k2 := by
  unfold strlen
  rw [h]

theorem get_congr {k1 k2 : CString} (h : k1.text = k2.text) (j : Nat) (hj : j ≤ strlen k1) :
    k1.get j = k2.get j := by
  have hlen := strlen_congr h
  rcases Nat.lt_or_ge j (strlen k1) with hlt | hge
  · rw [(get_of_lt_strlen k1 j hlt).1, (get_of_lt_strlen k2 j (by omega)).1, h]
  · have e : j = strlen k1 := le_antisymm hj hge
    rw [e, get_strlen k1, hlen, get_strlen k2]

/-- A lookup with a non-empty key depends on the characters in front of the
terminator only. -/
theorem lookupLoop_congr (t : TRIE) {k1 k2 : CString} (h : k1.text = k2.text) :
    ∀ (N : Nat) (p : Option Nat) (i : Nat), i < strlen k1 →
      lookupLoop t k1 N p i = lookupLoop t k2 N p i := by
  intro N
  induction N with
  | zero =>
    intro p i _
    rfl
  | succ N ih =>
    intro p i hi
    cases p with
    | none => rfl
    | some q =>
      have e0 := get_congr h i (le_of_lt hi)
      have e1 := get_congr h (i + 1) hi
      simp only [lookupLoop]
      rw [← e0, ← e1]
      split_ifs with h1 h2 h3
      · rfl
      · exact ih _ _ (get_ne_zero_lt k1 (i + 1) hi h2)
      · exact ih _ _ hi
      · exact ih _ _ hi

theorem Trie_Lookup_congr (t : TRIE) {k1 k2 : CString} (h : k1.text = k2.text)
    (hpos : 0 < strlen k1) (N : Nat) : Trie_Lookup N t k1 = Trie_Lookup N t k2 :=
  lookupLoop_congr t h N t.root 0 hpos

/-- A key that a lookup finds with a payload cannot be inserted with return
value `0`: the loop of `Trie_Insert` steps past the node that holds the payload. -/
theorem insertLoop_blocked (key : CString) (d : Option Nat) (t : TRIE) (hI : Inv t) :
    ∀ (N : Nat) (fuel : Nat) (curr : Loc) (i : Nat) (v : Nat) (code : Int) (t' : TRIE),
      LocOK t curr → lookupLoop t key N (t.load curr) i = some (some v) →
      insertLoop key d (strlen key : Nat) fuel t curr i (key.get i) =
        InsertResult.returned code t' →
      code = -1 := by
  intro N
  induction N with
  | zero =>
    intro fuel curr i v code t' _ hl _
    simp [lookupLoop] at hl
  | succ N ih =>
    intro fuel curr i v code t' hL hl h
    cases fuel with
    | zero => simp [insertLoop] at h
    | succ fuel =>
      cases hload : t.load curr with
      | none =>
        rw [hload, lookupLoop_none] at hl
        simp at hl
      | some p =>
        rw [hload] at hl
        have hp := hI.load_allocated hL hload
        rw [insertLoop_succ] at h
        have e : insertIter key d (strlen key : Nat) t curr i (key.get i) =
            compareStep key t curr i (key.get i) := by
          simp only [insertIter, hload]
        rw [e, compareStep_some hload] at h
        by_cases hm : key.get i = (t.nodeList p).splitchar
        · rw [if_pos hm] at h
          by_cases hz : key.get (i + 1) = 0
          · obtain ⟨hcode, _, _⟩ :=
              insertLoop_fail_index key d _ fuel t (Loc.rel p _) (i + 1) _ code t' hI hp h
            rcases hcode with h0 | h1
            · exfalso
              subst h0
              have hidx :=
                insertLoop_zero_index key d _ fuel t (Loc.rel p _) (i + 1) _ t' hI hp h
              have hlt : i + 1 < strlen key := by
                push_cast at hidx
                omega
              exact (get_of_lt_strlen key (i + 1) hlt).2 hz
            · exact h1
          · rw [lookupLoop_eq t key N p i hm hz] at hl
            exact ih fuel (Loc.rel p TRIE_NODE_EQ_CHILD) (i + 1) v code t' hp hl h
        · rw [if_neg hm] at h
          rw [lookupLoop_ne t key N p i hm] at hl
          exact ih fuel (Loc.rel p _) i v code t' hp hl h

/-- The round trip, for a trie that satisfies the structural invariant. -/
theorem Trie_Insert_found {t : TRIE} (hI : Inv t) {fuel : Nat} {key : CString}
    (hlen : strlen key < 2 ^ 31)
    {d : Option Nat} {t' : TRIE} (h : Trie_Insert fuel t key d = InsertResult.returned 0 t')
    (N : Nat) (hN : t'.nodeListIndex + 2 ≤ N) : Trie_Lookup N t' key = some d := by
  rw [Trie_Insert_short hlen] at h
  obtain ⟨hI', _⟩ := insertLoop_inv key d _ fuel t Loc.root 0 _ 0 t' hI trivial h
  obtain ⟨M, hM⟩ := insertLoop_lookup key d fuel t Loc.root 0 t' hI trivial h
  obtain ⟨r, hr⟩ := Trie_Lookup_terminates hI' key N hN
  have h1 := lookupLoop_mono t' key N t'.root 0 r M hr
  have h2 := lookupLoop_mono t' key M t'.root 0 d N hM
  rw [Nat.add_comm] at h2
  rw [h1] at h2
  rw [hr, h2]

theorem Trie_Insert_blocked {t : TRIE} (hI : Inv t) {fuel : Nat} {key : CString}
    (hlen : strlen key < 2 ^ 31)
    {d : Option Nat} {code : Int} {t' : TRIE}
    (h : Trie_Insert fuel t key d = InsertResult.returned code t') {N v : Nat}
    (hl : Trie_Lookup N t key = some (some v)) : code = -1 := by
  rw [Trie_Insert_short hlen] at h
  refine insertLoop_blocked key d t hI N fuel Loc.root 0 v code t' trivial ?_ h
  exact hl

/-- What the log of calls says about lookups with the key `K`, when the keys of
the calls that returned `0` have fewer than `2^31` characters. -/
theorem Run.lookups {t0 t : TRIE} {log : List (CString × Option Nat × Int)}
    (hrun : Run t0 log t) (h0 : Reachable t0)
    (h00 : ∀ (K : CString) (N : Nat), 2 ≤ N → Trie_Lookup N t0 K = some none) :
    (∀ e, e ∈ log → e.2.1 ≠ none) → (∀ e, e ∈ log → e.2.2 = 0 → strlen e.1 < 2 ^ 31) →
    ∀ (K : CString), 0 < strlen K → ∀ (N : Nat), t.nodeListIndex + 2 ≤ N →
      (∀ e, e ∈ log → e.1.text = K.text → e.2.2 = 0 → Trie_Lookup N t K = some e.2.1) ∧
      ((∀ e, e ∈ log → e.1.text = K.text → e.2.2 ≠ 0) → Trie_Lookup N t K = some none) ∧
      log.countP (fun e => decide (e.1.text = K.text ∧ e.2.2 = 0)) ≤ 1 := by
  induction hrun with
  | nil =>
    intro _ _ K _ N hN
    refine ⟨fun e he => absurd he (List.not_mem_nil e), fun _ => h00 K N (by omega), ?_⟩
    simp
  | @snoc log t fuel key data code t' hrun hins ih =>
    intro hlog hshort K hK N hN
    have hR := hrun.reachable h0
    have hI := hR.inv
    obtain ⟨hI', hE⟩ := insertLoop_inv key data _ fuel t Loc.root 0 _ code t' hI trivial hins
    have hNt : t.nodeListIndex + 2 ≤ N := le_trans (Nat.add_le_add_right hE.idx 2) hN
    have hlog0 : ∀ e, e ∈ log → e.2.1 ≠ none :=
      fun e he => hlog e (List.mem_append_left _ he)
    have hshort0 : ∀ e, e ∈ log → e.2.2 = 0 → strlen e.1 < 2 ^ 31 :=
      fun e he => hshort e (List.mem_append_left _ he)
    have hlen : code = 0 → strlen key < 2 ^ 31 :=
      fun hc => hshort (key, data, code) (by simp) hc
    obtain ⟨ih1, ih2, ih3⟩ := ih hlog0 hshort0 K hK N hNt
    by_cases hc : code = 0 ∧ key.text = K.text
    · obtain ⟨rfl, htext⟩ := hc
      have hfound : Trie_Lookup N t' K = some data := by
        rw [← Trie_Lookup_congr t' htext (by rw [strlen_congr htext]; exact hK) N]
        exact Trie_Insert_found hI (hlen rfl) hins N hN
      have hnone : ∀ e, e ∈ log → e.1.text = K.text → e.2.2 ≠ 0 := by
        intro e he het hec
        have hl := ih1 e he het hec
        obtain ⟨v, hv⟩ := Option.ne_none_iff_exists'.mp (hlog0 e he)
        rw [hv] at hl
        rw [← Trie_Lookup_congr t htext (by rw [strlen_congr htext]; exact hK) N] at hl
        have := Trie_Insert_blocked hI (hlen rfl) hins hl
        omega
      refine ⟨?_, ?_, ?_⟩
      · intro e he het hec
        rcases List.mem_append.mp he with he | he
        · exact absurd hec (hnone e he het)
        · simp only [List.mem_singleton] at he
          subst he
          exact hfound
      · intro hall
        exact absurd rfl (hall (key, data, 0) (by simp) htext)
      · rw [List.countP_append]
        have hz : log.countP (fun e => decide (e.1.text = K.text ∧ e.2.2 = 0)) = 0 := by
          rw [List.countP_eq_zero]
          intro e he
          simp only [decide_eq_true_eq, not_and]
          exact fun het => hnone e he het
        rw [hz]
        simp [List.countP_cons, htext]
    · have hframe : Trie_Lookup N t' K = Trie_Lookup N t K := by
        by_cases hc0 : code = 0
        · exact (Trie_Insert_frame hI (hlen hc0) hins K (fun h => hc ⟨h.1, h.2.symm⟩) N hN).1
        · exact (Trie_Insert_frame_cut hI hins K (fun h => hc0 h.1) N hN).1
      refine ⟨?_, ?_, ?_⟩
      · intro e he het hec
        rcases List.mem_append.mp he with he | he
        · rw [hframe]
          exact ih1 e he het hec
        · simp only [List.mem_singleton] at he
          subst he
          exact absurd ⟨hec, het⟩ hc
      · intro hall
        rw [hframe]
        exact ih2 (fun e he => hall e (List.mem_append_left _ he))
      · rw [List.countP_append]
        have hz : [(key, data, code)].countP
            (fun e => decide (e.1.text = K.text ∧ e.2.2 = 0)) = 0 := by
          rw [List.countP_eq_zero]
          intro e he
          simp only [List.mem_singleton] at he
          subst he
          simp only [decide_eq_true_eq]
          exact fun h => hc ⟨h.2, h.1⟩
        rw [hz]
        exact ih3

/-- C19 (the trie as a map), for calls whose key, when they return `0`, has
fewer than `2^31` characters.  Let `t` come from `Trie_new( n )` by a sequence
of returning `Trie_Insert` calls with non-`NULL` payloads, and let `K` be a
non-empty key.  Then `Trie_Lookup( K )` on `t` returns a non-`NULL` pointer
exactly when some call of the sequence had the string `K` as its key and
returned `0`; it then returns the payload of that call; at most one call of
the sequence with the key `K` returned `0`; and every call that returns `0`
moves the cursor up, that is, allocates at least one node. -/
theorem lookup_agrees_with_call_log (a : Bool) (b : Option (Nat → TRIE_NODE)) (n : Nat)
    (t0 : TRIE) (log : List (CString × Option Nat × Int)) (t : TRIE)
    (hnew : Trie_new a b n = some t0) (hrun : Run t0 log t)
    (hlog : ∀ e, e ∈ log → e.2.1 ≠ none)
    (hshort : ∀ e, e ∈ log → e.2.2 = 0 → strlen e.1 < 2 ^ 31)
    (K : CString) (hK : 0 < strlen K) (N : Nat)
    (hN : t.nodeListIndex + 2 ≤ N) :
    ((∃ v, Trie_Lookup N t K = some (some v)) ↔
        ∃ e, e ∈ log ∧ e.1.text = K.text ∧ e.2.2 = 0) ∧
      (∀ e, e ∈ log → e.1.text = K.text → e.2.2 = 0 → Trie_Lookup N t K = some e.2.1) ∧
      log.countP (fun e => decide (e.1.text = K.text ∧ e.2.2 = 0)) ≤ 1 ∧
      (∀ (s : TRIE), Reachable s → ∀ (fuel : Nat) (key : CString) (data : Option Nat)
        (s' : TRIE), Trie_Insert fuel s key data = InsertResult.returned 0 s' →
        s.nodeListIndex < s'.nodeListIndex) := by
  have h0 : Reachable t0 := Reachable.new a b n t0 hnew
  have h00 : ∀ (K : CString) (N : Nat), 2 ≤ N → Trie_Lookup N t0 K = some none := by
    intro K N hN2
    obtain ⟨mem, rfl⟩ := Trie_new_some hnew
    have hnode := newTrie_node mem n 0 (newTrie_size_pos mem n)
    obtain ⟨M, rfl⟩ : ∃ M, N = M + 1 + 1 := ⟨N - 2, by omega⟩
    show lookupLoop (newTrie mem n) K (M + 1 + 1) (some 0) 0 = some none
    by_cases hm : K.get 0 = ((newTrie mem n).nodeList 0).splitchar
    · by_cases hz : K.get (0 + 1) = 0
      · rw [lookupLoop_hit _ K (M + 1) 0 0 hm hz, hnode]
      · rw [lookupLoop_eq _ K (M + 1) 0 0 hm hz, hnode]
        rfl
    · rw [lookupLoop_ne _ K (M + 1) 0 0 hm, hnode]
      rfl
  obtain ⟨h1, h2, h3⟩ := hrun.lookups h0 h00 hlog hshort K hK N hN
  refine ⟨⟨?_, ?_⟩, h1, h3, ?_⟩
  · rintro ⟨v, hv⟩
    by_contra hno
    have hall : ∀ e, e ∈ log → e.1.text = K.text → e.2.2 ≠ 0 :=
      fun e he het hec => hno ⟨e, he, het, hec⟩
    rw [h2 hall] at hv
    simp at hv
  · rintro ⟨e, he, het, hec⟩
    obtain ⟨v, hv⟩ := Option.ne_none_iff_exists'.mp (hlog e he)
    exact ⟨v, by rw [h1 e he het hec, hv]⟩
  · intro s hs fuel key data s' hins
    exact (insertLoop_fail_index key data _ fuel s Loc.root 0 _ 0 s' hs.inv trivial hins).2.2 rfl

theorem lookup_agrees_with_call_log_witness :
    Trie_new true (some garbage) 100 = some test0 ∧
      Run test0 [(keyFoo, some 2142, 0), (keyEdgar, some 82, 0), (keyFor, some 84, 0)] test3 ∧
      0 < strlen keyFoo ∧ test3.nodeListIndex + 2 ≤ 12 ∧
      Trie_Lookup 12 test3 keyFoo = some (some 2142) :=
  ⟨rfl,
    Run.snoc 200 keyFor (some 84) 0 test3
      (Run.snoc 200 keyEdgar (some 82) 0 test2
        (Run.snoc 200 keyFoo (some 2142) 0 test1 (Run.nil test0)
          (returned_of_code (by decide) test0))
        (returned_of_code (by decide) test1))
      (returned_of_code (by decide) test2),
    by decide, by decide,
    (lookup_agrees_with_call_log true (some garbage) 100 test0
      [(keyFoo, some 2142, 0), (keyEdgar, some 82, 0), (keyFor, some 84, 0)] test3 rfl
      (Run.snoc 200 keyFor (some 84) 0 test3
        (Run.snoc 200 keyEdgar (some 82) 0 test2
          (Run.snoc 200 keyFoo (some 2142) 0 test1 (Run.nil test0)
            (returned_of_code (by decide) test0))
          (returned_of_code (by decide) test1))
        (returned_of_code (by decide) test2))
      (by decide) (by decide) keyFoo (by decide) 12 (by decide)).2.1
      (keyFoo, some 2142, 0) (by simp) rfl rfl⟩

/-! ## Keys that were inserted before -/

theorem text_replicate (n : Nat) (c : Int) (hc : c ≠ 0) (past : Nat → Int) :
    (CString.mk (List.replicate n c) past).text = List.replicate n c := by
  unfold CString.text
  rw [List.takeWhile_eq_self_iff]
  intro x hx
  rw [List.eq_of_mem_replicate hx]
  exact decide_eq_true hc

theorem get_replicate (n : Nat) (c : Int) (past : Nat → Int) (i : Nat) (hi : i < n) :
    (CString.mk (List.replicate n c) past).get i = c := by
  unfold CString.get
  rw [List.length_replicate, if_pos hi,
    List.getD_eq_getElem _ _ (by rw [List.length_replicate]; exact hi)]
  exact List.getElem_replicate _ _

theorem hugeKey_text : hugeKey.text = List.replicate (2 ^ 32 + 1) 97 :=
  text_replicate (2 ^ 32 + 1) 97 (by decide) behind

theorem strlen_hugeKey : strlen hugeKey = 2 ^ 32 + 1 := by
  unfold strlen
  rw [hugeKey_text, List.length_replicate]

theorem hugeKey_get (i : Nat) (hi : i < 2 ^ 32 + 1) : hugeKey.get i = 97 :=
  get_replicate (2 ^ 32 + 1) 97 behind i hi

/-- The conversion `int keyLength = strlen( key )` leaves `1` of the `2^32 + 1`
characters. -/
theorem keyLength_hugeKey : int_of_size_t (strlen hugeKey) = 1 := by
  rw [strlen_hugeKey]
  decide

/-- With the key `hugeKey` the loop of `Trie_Insert` is run for a key of length `1`. -/
theorem Trie_Insert_hugeKey (fuel : Nat) (t : TRIE) (d : Option Nat) :
    Trie_Insert fuel t hugeKey d = insertLoop hugeKey d 1 fuel t Loc.root 0 97 := by
  unfold Trie_Insert
  rw [keyLength_hugeKey, hugeKey_get 0 (by norm_num)]

theorem hugeTrie_eq :
    hugeTrie = (insertLoop hugeKey (some 77) 1 200 test0 Loc.root 0 97).trieOr test0 := by
  unfold hugeTrie
  rw [Trie_Insert_hugeKey]

theorem Trie_Insert_hugeKey_returns :
    Trie_Insert 200 test0 hugeKey (some 77) = InsertResult.returned 0 hugeTrie := by
  apply returned_of_code
  rw [Trie_Insert_hugeKey]
  decide

/-- Two keys with the same bytes up to the index `i + N` take a lookup of `N`
passes from index `i` the same way. -/
theorem lookupLoop_agree (t : TRIE) (k1 k2 : CString) :
    ∀ (N : Nat) (p : Option Nat) (i : Nat), (∀ x, x ≤ i + N → k1.get x = k2.get x) →
      lookupLoop t k1 N p i = lookupLoop t k2 N p i := by
  intro N
  induction N with
  | zero =>
    intro p i _
    rfl
  | succ N ih =>
    intro p i h
    cases p with
    | none => rfl
    | some q =>
      have e0 := h i (by omega)
      have e1 := h (i + 1) (by omega)
      simp only [lookupLoop]
      rw [← e0, ← e1]
      split_ifs
      · rfl
      · exact ih _ _ (fun x hx => h x (by omega))
      · exact ih _ _ (fun x hx => h x (by omega))
      · exact ih _ _ (fun x hx => h x (by omega))

theorem Trie_Lookup_hugeKey : Trie_Lookup 4 hugeTrie hugeKey = some none := by
  have e : Trie_Lookup 4 hugeTrie hugeKey = Trie_Lookup 4 hugeTrie keySixA := by
    apply lookupLoop_agree
    intro x hx
    rw [hugeKey_get x (by omega)]
    have h5 : x < 6 := by omega
    exact (get_replicate 6 97 behind x h5).symm
  rw [e, hugeTrie_eq]
  decide

/-- C1 fails for a key of `2^31` characters or more.  On the fresh self-test
trie, `Trie_Insert( hugeKey, ... )` for the key of `2^32 + 1` characters `'a'`
returns `0`, and `Trie_Lookup( hugeKey )` on the resulting trie returns `NULL`,
not the payload. -/
theorem roundtrip_fails_for_hugeKey :
    Reachable test0 ∧ strlen hugeKey = 2 ^ 32 + 1 ∧
      Trie_Insert 200 test0 hugeKey (some 77) = InsertResult.returned 0 hugeTrie ∧
      Trie_Lookup 200 hugeTrie hugeKey = some none :=
  ⟨test0_reachable, strlen_hugeKey, Trie_Insert_hugeKey_returns,
    lookupLoop_mono hugeTrie hugeKey 4 hugeTrie.root 0 none 196 Trie_Lookup_hugeKey⟩

/-- C4 fails when the inserted key has `2^31` characters or more.  The key `"a"`
is a proper prefix of `hugeKey`; `Trie_Lookup( "a" )` returns `NULL` on the fresh
self-test trie; `Trie_Insert( hugeKey, ... )` returns `0`; and afterwards
`Trie_Lookup( "a" )` returns the payload of that call. -/
theorem prefix_appears_after_hugeKey :
    Reachable test0 ∧ 0 < strlen keyA ∧ 0 < strlen hugeKey ∧
      keyA.text <+: hugeKey.text ∧ keyA.text ≠ hugeKey.text ∧
      Trie_Lookup 200 test0 keyA = some none ∧
      Trie_Insert 200 test0 hugeKey (some 77) = InsertResult.returned 0 hugeTrie ∧
      Trie_Lookup 200 hugeTrie keyA = some (some 77) := by
  refine ⟨test0_reachable, by decide, by rw [strlen_hugeKey]; norm_num, ?_, ?_, by decide,
    Trie_Insert_hugeKey_returns, ?_⟩
  · have hA : keyA.text = [97] := by decide
    rw [hugeKey_text, hA, List.replicate_succ]
    exact ⟨List.replicate (2 ^ 32) 97, rfl⟩
  · intro h
    have h2 := congrArg List.length h
    rw [hugeKey_text, List.length_replicate] at h2
    have h3 : keyA.text.length = 1 := by decide
    omega
  · rw [hugeTrie_eq]
    decide

/-- C19 fails when a call that returned `0` had a key of `2^31` characters or
more.  After the one call `Trie_Insert( hugeKey, ... )`, which returns `0`, on
`Trie_new( 100 )`, the lookup `Trie_Lookup( "a" )` returns the payload of that
call, although no call of the sequence had the key `"a"`. -/
theorem lookup_finds_key_of_no_call :
    Trie_new true (some garbage) 100 = some test0 ∧
      Run test0 [(hugeKey, some 77, 0)] hugeTrie ∧ 0 < strlen keyA ∧
      Trie_Lookup 200 hugeTrie keyA = some (some 77) ∧
      ¬ ∃ e, e ∈ [(hugeKey, some 77, (0 : Int))] ∧ e.1.text = keyA.text ∧ e.2.2 = 0 := by
  refine ⟨rfl, Run.snoc 200 hugeKey (some 77) 0 hugeTrie (Run.nil test0)
    Trie_Insert_hugeKey_returns, by decide, ?_, ?_⟩
  · rw [hugeTrie_eq]
    decide
  · rintro ⟨e, he, het, _⟩
    rw [List.mem_singleton] at he
    subst he
    have h2 := congrArg List.length het
    have h3 : keyA.text.length = 1 := by decide
    rw [h3] at h2
    have h4 : hugeKey.text.length = 2 ^ 32 + 1 := strlen_hugeKey
    have h5 : ((hugeKey, some 77, (0 : Int)) : CString × Option Nat × Int).1.text.length =
        hugeKey.text.length := rfl
    omega

end Trie
